import Mathlib

/-!
# A shallow embedding of the byte-oriented Huffman engine (`huffman.py`)

This file embeds the data model and operations of the Huffman
compression engine: the `Node` tree, the CPython `heapq` priority queue
it relies on, tree construction from a frequency table, the code-table
traversal, the stateful per-bit decoder, pre-order tree
(de)serialization, bit packing, and the compressed-container codec
(`compress` / `decompress`).

Conventions of the embedding:
* Python byte values and unsigned integers are `Nat`.
* Python bitstrings (strings of `'0'`/`'1'` characters) are `List Char`;
  keeping `Char` (rather than `Bool`) preserves the behaviour of the
  decoder on non-bit characters.
* Python `dict`s are association lists in insertion order, which is
  exactly the iteration order of a CPython 3.7+ `dict`.
* Python exceptions are modelled by `Except HuffError`; each `raise`
  site maps to one constructor of `HuffError`.
* `bytes` buffers are `List Nat` (each entry < 256 in well-formed data).
-/

namespace Huffman

/-! ## Bitstring primitives

`int(s, 2)` and `format(n, '08b')` from the Python sources. -/

/-- Python `int(s, 2)` on a string of `'0'`/`'1'` characters
(totalised: the empty string, which raises in Python, yields 0; this
case is never reached on the inputs the engine produces). -/
def binToNat (s : List Char) : Nat :=
  s.foldl (fun acc c => 2 * acc + (if c = '1' then 1 else 0)) 0

/-- Minimal binary representation of `n` (`format(n, 'b')` without the
leading-zero special case); `natToBinAux fuel 0 = []`.  The recursion
descends along `n / 2`, so any `fuel ≥ n` reproduces it exactly; the
fuel keeps the definition structurally recursive (kernel-computable). -/
def natToBinAux : Nat → Nat → List Char
  | _, 0 => []
  | 0, _ + 1 => []
  | fuel + 1, n + 1 =>
    natToBinAux fuel ((n + 1) / 2) ++ [if (n + 1) % 2 = 1 then '1' else '0']

/-- Python `format(n, 'b')`: minimal binary representation, `"0"` for 0. -/
def natToBin (n : Nat) : List Char :=
  if n = 0 then ['0'] else natToBinAux n n

/-- Python `format(n, '08b')`: binary representation left-padded with
zeros to (at least) width 8. -/
def byteBits (n : Nat) : List Char :=
  List.replicate (8 - (natToBin n).length) '0' ++ natToBin n

theorem binToNat_append_bit (u : List Char) (c : Char) :
    binToNat (u ++ [c]) = 2 * binToNat u + (if c = '1' then 1 else 0) := by
  simp [binToNat, List.foldl_append]

theorem binToNat_natToBinAux (fuel n : Nat) (hfuel : n ≤ fuel) :
    binToNat (natToBinAux fuel n) = n := by
  induction fuel generalizing n with
  | zero =>
    match n, hfuel with
    | 0, _ => simp [natToBinAux, binToNat]
  | succ f ih =>
    match n with
    | 0 => simp [natToBinAux, binToNat]
    | n + 1 =>
      rw [natToBinAux, binToNat_append_bit, ih ((n + 1) / 2) (by omega)]
      rcases Nat.mod_two_eq_zero_or_one (n + 1) with h | h <;>
        · simp [h]
          omega

theorem binToNat_natToBin (n : Nat) : binToNat (natToBin n) = n := by
  unfold natToBin
  split
  · simp [binToNat, *]
  · exact binToNat_natToBinAux n n (Nat.le_refl n)

theorem binToNat_replicate_zero_append (k : Nat) (s : List Char) :
    binToNat (List.replicate k '0' ++ s) = binToNat s := by
  induction k with
  | zero => simp
  | succ m ih =>
    have : List.replicate (m + 1) '0' ++ s = '0' :: (List.replicate m '0' ++ s) := by
      simp [List.replicate_succ]
    rw [this]
    simpa [binToNat] using ih

theorem binToNat_byteBits (n : Nat) : binToNat (byteBits n) = n := by
  rw [byteBits, binToNat_replicate_zero_append, binToNat_natToBin]

theorem natToBinAux_length_le (k n fuel : Nat) (h : n < 2 ^ k)
    (hfuel : n ≤ fuel) : (natToBinAux fuel n).length ≤ k := by
  induction k generalizing n fuel with
  | zero =>
    interval_cases n
    match fuel with
    | 0 => simp [natToBinAux]
    | f + 1 => simp [natToBinAux]
  | succ m ih =>
    match n with
    | 0 =>
      match fuel with
      | 0 => simp [natToBinAux]
      | f + 1 => simp [natToBinAux]
    | n + 1 =>
      match fuel, hfuel with
      | f + 1, hf =>
        rw [natToBinAux]
        have hdiv : (n + 1) / 2 < 2 ^ m := by
          have h2 : n + 1 < 2 ^ m * 2 := by rw [← Nat.pow_succ]; exact h
          omega
        have := ih ((n + 1) / 2) f hdiv (by omega)
        simp only [List.length_append, List.length_cons, List.length_nil]
        omega

theorem natToBin_length_le_eight (n : Nat) (h : n < 256) :
    (natToBin n).length ≤ 8 := by
  unfold natToBin
  split
  · simp
  · exact natToBinAux_length_le 8 n n h (Nat.le_refl n)

theorem byteBits_length (n : Nat) (h : n < 256) : (byteBits n).length = 8 := by
  have := natToBin_length_le_eight n h
  simp only [byteBits, List.length_append, List.length_replicate]
  omega

theorem byteBits_mem (n : Nat) (c : Char) (hc : c ∈ byteBits n) :
    c = '0' ∨ c = '1' := by
  have haux : ∀ fuel m, ∀ c ∈ natToBinAux fuel m, c = '0' ∨ c = '1' := by
    intro fuel
    induction fuel with
    | zero =>
      intro m
      match m with
      | 0 => simp [natToBinAux]
      | m + 1 => simp [natToBinAux]
    | succ f ih =>
      intro m
      match m with
      | 0 => simp [natToBinAux]
      | m + 1 =>
        rw [natToBinAux]
        intro c hc
        rcases List.mem_append.mp hc with h | h
        · exact ih _ c h
        · simp only [List.mem_singleton] at h
          subst h
          split <;> simp
  rcases List.mem_append.mp hc with h | h
  · left; exact List.eq_of_mem_replicate h
  · unfold natToBin at h
    split at h
    · simp only [List.mem_singleton] at h; left; exact h
    · exact haux n n c h

/-! ## The tree node (`class Node`)

A Python `Node` holds `freq`, an optional `byte_value`, and optional
`left`/`right` children. -/

inductive Node where
  | mk (freq : Nat) (byteValue : Option Nat) (left : Option Node)
      (right : Option Node)

def Node.freq : Node → Nat
  | .mk f _ _ _ => f

def Node.byteValue : Node → Option Nat
  | .mk _ b _ _ => b

def Node.left : Node → Option Node
  | .mk _ _ l _ => l

def Node.right : Node → Option Node
  | .mk _ _ _ r => r

/-- Python `Node.is_leaf`: `left is None and right is None`. -/
def Node.isLeaf : Node → Bool
  | .mk _ _ none none => true
  | _ => false

/-- A placeholder node used to totalise Python list indexing
(`heap[i]`); it is never read on the index ranges the algorithms use. -/
def dummyNode : Node := .mk 0 none none none

/-! ## The error taxonomy

Each constructor corresponds to one family of `raise` sites in
`huffman.py` (spec §7 names them `EmptyInput`, `SymbolNotInTable`,
`InvalidBit`, `UninitializedTree`, `InvalidContainer`); the remaining
constructors model exceptions Python itself would raise on malformed
data (`struct.error`, `TypeError`/`ValueError` in `bytes(...)`,
`AttributeError` on `None`). -/

inductive HuffError where
  | emptyInput
  | symbolNotInTable
  | invalidBit
  | uninitializedTree
  | invalidContainer
  | structError
  | typeError
  | byteRange
  | attributeError
deriving DecidableEq, Repr

deriving instance DecidableEq for Except

/-! ## The CPython `heapq` module

`build_from_frequencies` uses `heapq.heapify`, `heapq.heappush` and
`heapq.heappop` on a Python list of `Node`s, compared with
`Node.__lt__`, i.e. by `freq` only.  The following definitions are the
(pure-Python) reference implementations of those functions from
CPython's `heapq`, specialised to `Node` lists. -/

/-- The loop of `heapq._siftdown(heap, startpos, pos)` together with the
final write `heap[pos] = newitem`; `newitem` is the value read from
`heap[pos]` before the loop.  `parentpos = (pos - 1) >> 1` and
`parent = heap[parentpos]` are inlined; `Node.__lt__` compares `freq`.
`pos` strictly decreases on every iteration, so any `fuel ≥ pos`
reproduces the loop exactly; the fuel keeps the definition structural. -/
def siftdownAux : Nat → List Node → Nat → Nat → Node → List Node
  | 0, heap, _, pos, newitem => heap.set pos newitem
  | fuel + 1, heap, startpos, pos, newitem =>
    if startpos < pos then
      if newitem.freq < (heap.getD ((pos - 1) / 2) dummyNode).freq then
        siftdownAux fuel (heap.set pos (heap.getD ((pos - 1) / 2) dummyNode))
          startpos ((pos - 1) / 2) newitem
      else
        heap.set pos newitem
    else
      heap.set pos newitem

/-- `heapq._siftdown(heap, startpos, pos)`. -/
def siftdown (heap : List Node) (startpos pos : Nat) : List Node :=
  siftdownAux pos heap startpos pos (heap.getD pos dummyNode)

/-- The child selection inside `heapq._siftup`'s loop: starting from
`childpos = 2*pos + 1`, move to `rightpos = childpos + 1` when
`rightpos < endpos and not heap[childpos] < heap[rightpos]`. -/
def siftupChild (heap : List Node) (pos : Nat) : Nat :=
  if 2 * pos + 2 < heap.length ∧
      ¬ (heap.getD (2 * pos + 1) dummyNode).freq <
        (heap.getD (2 * pos + 2) dummyNode).freq then
    2 * pos + 2
  else 2 * pos + 1

/-- The loop of `heapq._siftup(heap, pos)` (with `startpos` and
`newitem` captured before the loop: the loop runs while
`2*pos + 1 < endpos`, does `heap[pos] = heap[childpos]; pos = childpos`),
followed by `heap[pos] = newitem` and the final
`_siftdown(heap, startpos, pos)`.  `pos` strictly increases below
`heap.length` on every iteration, so any `fuel ≥ heap.length`
reproduces the loop exactly. -/
def siftupAux : Nat → List Node → Nat → Nat → Node → List Node
  | 0, heap, startpos, pos, newitem =>
    siftdownAux pos (heap.set pos newitem) startpos pos newitem
  | fuel + 1, heap, startpos, pos, newitem =>
    if 2 * pos + 1 < heap.length then
      siftupAux fuel (heap.set pos (heap.getD (siftupChild heap pos) dummyNode))
        startpos (siftupChild heap pos) newitem
    else
      siftdownAux pos (heap.set pos newitem) startpos pos newitem

/-- `heapq._siftup(heap, pos)`. -/
def siftup (heap : List Node) (pos : Nat) : List Node :=
  siftupAux heap.length heap pos pos (heap.getD pos dummyNode)

/-- The loop `for i in reversed(range(n)): _siftup(x, i)`. -/
def heapifyAux : List Node → Nat → List Node
  | heap, 0 => heap
  | heap, i + 1 => heapifyAux (siftup heap i) i

/-- `heapq.heapify(x)`: `for i in reversed(range(len(x)//2)): _siftup(x, i)`. -/
def heapify (heap : List Node) : List Node :=
  heapifyAux heap (heap.length / 2)

/-- `heapq.heappush(heap, item)`. -/
def heappush (heap : List Node) (item : Node) : List Node :=
  siftdown (heap ++ [item]) 0 heap.length

/-- `heapq.heappop(heap)`: returns the popped item and the remaining
heap, or `none` on an empty heap (Python raises `IndexError`). -/
def heappop (heap : List Node) : Option (Node × List Node) :=
  match heap with
  | [] => none
  | a :: t =>
    -- `lastelt = heap.pop()`; if the heap is nonempty afterwards, the
    -- root is returned, the last element moved to index 0 and sifted up.
    match (a :: t).dropLast with
    | [] => some ((a :: t).getLast (List.cons_ne_nil a t), [])
    | r0 :: rest =>
      some (r0, siftup ((r0 :: rest).set 0 ((a :: t).getLast (List.cons_ne_nil a t))) 0)

theorem siftdownAux_length (fuel : Nat) (heap : List Node)
    (startpos pos : Nat) (newitem : Node) :
    (siftdownAux fuel heap startpos pos newitem).length = heap.length := by
  induction fuel generalizing heap pos with
  | zero => simp [siftdownAux]
  | succ f ih =>
    rw [siftdownAux]
    split
    · split
      · rw [ih]
        simp
      · simp
    · simp

theorem siftupAux_length (fuel : Nat) (heap : List Node) (startpos pos : Nat)
    (newitem : Node) :
    (siftupAux fuel heap startpos pos newitem).length = heap.length := by
  induction fuel generalizing heap pos with
  | zero =>
    rw [siftupAux, siftdownAux_length]
    simp
  | succ f ih =>
    rw [siftupAux]
    split
    · rw [ih]
      simp
    · rw [siftdownAux_length]
      simp

theorem siftup_length (heap : List Node) (pos : Nat) :
    (siftup heap pos).length = heap.length := by
  rw [siftup, siftupAux_length]

theorem heapify_length (heap : List Node) :
    (heapify heap).length = heap.length := by
  rw [heapify]
  generalize heap.length / 2 = k
  induction k generalizing heap with
  | zero => rfl
  | succ m ih => rw [heapifyAux, ih, siftup_length]

theorem heappush_length (heap : List Node) (item : Node) :
    (heappush heap item).length = heap.length + 1 := by
  rw [heappush, siftdown, siftdownAux_length]
  simp

theorem heappop_length (heap : List Node) (x : Node) (rest : List Node)
    (h : heappop heap = some (x, rest)) :
    rest.length = heap.length - 1 := by
  match heap with
  | [] => simp [heappop] at h
  | a :: t =>
    rw [heappop] at h
    split at h
    · rename_i heq
      simp only [Option.some.injEq, Prod.mk.injEq] at h
      rw [← h.2]
      have h1 := congrArg List.length heq
      simp at h1 ⊢
      simp [h1]
    · rename_i r0 rest' heq
      simp only [Option.some.injEq, Prod.mk.injEq] at h
      rw [← h.2, siftup_length, List.length_set]
      have h2 := congrArg List.length heq
      simp at h2 ⊢
      omega

/-! ### The heap operations permute the heap

Each `heapq` operation rearranges the elements of the Python list (and
`heappush`/`heappop` add/remove one element); nothing is duplicated or
lost.  This is the key fact used to track the tree invariants through
`build_from_frequencies`. -/

theorem perm_of_list_eq {α : Type} {l₁ l₂ : List α} (h : l₁ = l₂) :
    l₁.Perm l₂ :=
  h ▸ List.Perm.refl _

theorem cons_set_perm (t : List Node) (m : Nat) (x : Node)
    (h : m < t.length) :
    (t.getD m dummyNode :: t.set m x).Perm (x :: t) := by
  induction t generalizing m with
  | nil => simp at h
  | cons b t' ih =>
    match m with
    | 0 => simpa using List.Perm.swap x b t'
    | k + 1 =>
      simp only [List.getD_cons_succ, List.set_cons_succ]
      refine (List.Perm.swap b (t'.getD k dummyNode) (t'.set k x)).trans ?_
      refine ((ih k (by simpa using h)).cons b).trans ?_
      exact List.Perm.swap x b t'

theorem set_cons_perm (t : List Node) (n : Nat) (a x : Node)
    (h : n < t.length) :
    (x :: t.set n a).Perm (a :: t.set n x) := by
  induction t generalizing n with
  | nil => simp at h
  | cons b t' ih =>
    match n with
    | 0 => simpa using List.Perm.swap a x t'
    | k + 1 =>
      simp only [List.set_cons_succ]
      refine (List.Perm.swap b x (t'.set k a)).trans ?_
      refine ((ih k (by simpa using h)).cons b).trans ?_
      exact List.Perm.swap a b (t'.set k x)

/-- Writing `l[j]` into slot `i` and then overwriting slot `j` is, up to
permutation, the same as overwriting slot `i` alone. -/
theorem set_set_perm (l : List Node) (i j : Nat) (x : Node)
    (hi : i < l.length) (hj : j < l.length) (hij : i ≠ j) :
    ((l.set i (l.getD j dummyNode)).set j x).Perm (l.set i x) := by
  induction l generalizing i j with
  | nil => simp at hi
  | cons a t ih =>
    match i, j with
    | 0, 0 => exact absurd rfl hij
    | 0, m + 1 =>
      simp only [List.getD_cons_succ, List.set_cons_zero, List.set_cons_succ]
      exact cons_set_perm t m x (by simpa using hj)
    | n + 1, 0 =>
      simp only [List.getD_cons_zero, List.set_cons_succ, List.set_cons_zero]
      exact set_cons_perm t n a x (by simpa using hi)
    | n + 1, m + 1 =>
      simp only [List.getD_cons_succ, List.set_cons_succ]
      exact (ih n m (by simpa using hi) (by simpa using hj)
        (by omega)).cons a

theorem siftdownAux_perm (fuel : Nat) (heap : List Node) (startpos pos : Nat)
    (newitem : Node) (hpos : pos < heap.length) :
    (siftdownAux fuel heap startpos pos newitem).Perm
      (heap.set pos newitem) := by
  induction fuel generalizing heap pos with
  | zero => exact List.Perm.refl _
  | succ f ih =>
    rw [siftdownAux]
    split
    · split
      · rename_i h1 h2
        refine ((ih _ ((pos - 1) / 2) (by simp; omega)).trans ?_)
        exact set_set_perm heap pos ((pos - 1) / 2) newitem hpos
          (by omega) (by omega)
      · exact List.Perm.refl _
    · exact List.Perm.refl _

theorem siftupChild_lt (heap : List Node) (pos : Nat)
    (h : 2 * pos + 1 < heap.length) :
    siftupChild heap pos < heap.length ∧ pos < siftupChild heap pos := by
  unfold siftupChild
  split <;> omega

theorem siftupAux_perm (fuel : Nat) (heap : List Node) (startpos pos : Nat)
    (newitem : Node) (hpos : pos < heap.length) :
    (siftupAux fuel heap startpos pos newitem).Perm
      (heap.set pos newitem) := by
  induction fuel generalizing heap pos with
  | zero =>
    rw [siftupAux]
    refine (siftdownAux_perm pos _ startpos pos newitem
      (by simp [hpos])).trans ?_
    rw [List.set_set]
  | succ f ih =>
    rw [siftupAux]
    split
    · rename_i h
      obtain ⟨hc, hcp⟩ := siftupChild_lt heap pos h
      refine (ih _ _ (by simpa using hc)).trans ?_
      exact set_set_perm heap pos (siftupChild heap pos) newitem hpos hc
        (by omega)
    · refine (siftdownAux_perm pos _ startpos pos newitem
        (by simp [hpos])).trans ?_
      rw [List.set_set]

theorem set_getD_self (l : List Node) (n : Nat) (h : n < l.length) :
    l.set n (l.getD n dummyNode) = l := by
  induction l generalizing n with
  | nil => simp at h
  | cons a t ih =>
    match n with
    | 0 => rfl
    | k + 1 =>
      simp only [List.set_cons_succ, List.getD_cons_succ]
      rw [ih k (by simpa using h)]

theorem siftup_perm (heap : List Node) (pos : Nat) (hpos : pos < heap.length) :
    (siftup heap pos).Perm heap := by
  rw [siftup]
  refine (siftupAux_perm heap.length heap pos pos _ hpos).trans ?_
  rw [set_getD_self heap pos hpos]

theorem heapifyAux_perm (heap : List Node) (k : Nat) (hk : k ≤ heap.length) :
    (heapifyAux heap k).Perm heap := by
  induction k generalizing heap with
  | zero => exact List.Perm.refl _
  | succ m ih =>
    rw [heapifyAux]
    have hperm := siftup_perm heap m (by omega)
    refine (ih _ ?_).trans hperm
    rw [siftup_length]
    omega

theorem heapify_perm (heap : List Node) : (heapify heap).Perm heap :=
  heapifyAux_perm heap _ (Nat.div_le_self _ _)

theorem set_append_singleton (l : List Node) (x v : Node) :
    (l ++ [x]).set l.length v = l ++ [v] := by
  induction l with
  | nil => rfl
  | cons a t ih => simp [ih]

theorem heappush_perm (heap : List Node) (item : Node) :
    (heappush heap item).Perm (heap ++ [item]) := by
  rw [heappush, siftdown]
  have h1 : (heap ++ [item]).getD heap.length dummyNode = item := by
    simp
  rw [h1]
  refine (siftdownAux_perm heap.length _ 0 heap.length item (by simp)).trans ?_
  rw [set_append_singleton]

theorem heappop_perm (heap : List Node) (x : Node) (rest : List Node)
    (h : heappop heap = some (x, rest)) : (x :: rest).Perm heap := by
  match heap with
  | [] => simp [heappop] at h
  | a :: t =>
    rw [heappop] at h
    split at h
    · rename_i heq
      simp only [Option.some.injEq, Prod.mk.injEq] at h
      rw [← h.1, ← h.2]
      have hlast := List.dropLast_append_getLast (List.cons_ne_nil a t)
      rw [heq] at hlast
      simp only [List.nil_append] at hlast
      exact perm_of_list_eq hlast
    · rename_i r0 rest' heq
      simp only [Option.some.injEq, Prod.mk.injEq] at h
      rw [← h.1, ← h.2]
      have hlast := List.dropLast_append_getLast (List.cons_ne_nil a t)
      rw [heq] at hlast
      refine List.Perm.trans ?_ (perm_of_list_eq hlast)
      refine ((siftup_perm _ 0 (by simp)).cons r0).trans ?_
      simp only [List.set_cons_zero, List.cons_append]
      exact (List.perm_append_singleton _ rest').symm.cons r0

/-! ## The `HuffmanTree` aggregate

`__init__` sets `root = None`, `code_table = {}`, `current_node = None`.
The code table is a Python `dict` keyed by `node.byte_value`
(an `Option Nat`, since Python leaves carry `None` on malformed trees),
kept in insertion order. -/

abbrev CodeTable := List (Option Nat × List Char)

structure HuffmanTree where
  root : Option Node
  code_table : CodeTable
  current_node : Option Node

/-- `HuffmanTree()`. -/
def htInit : HuffmanTree := ⟨none, [], none⟩

/-- Python `dict` assignment `d[k] = v`: overwrite in place if the key
exists, otherwise append at the end (CPython insertion order). -/
def dictInsert (d : CodeTable) (k : Option Nat) (v : List Char) : CodeTable :=
  match d with
  | [] => [(k, v)]
  | (k', v') :: rest =>
    if k' = k then (k', v) :: rest else (k', v') :: dictInsert rest k v

/-- The recursive `traverse(node, code)` of `_build_code_table` on a
non-`None` node, threading the `self.code_table` dict as an
accumulator; a leaf stores `code if code else "0"`. -/
def traverseCTNode : Node → CodeTable → List Char → CodeTable
  | .mk _ bv l r, acc, code =>
    if (Node.mk 0 bv l r).isLeaf then
      dictInsert acc bv (if code = [] then ['0'] else code)
    else
      match r with
      | none =>
        match l with
        | none => acc
        | some x => traverseCTNode x acc (code ++ ['0'])
      | some y =>
        traverseCTNode y
          (match l with
           | none => acc
           | some x => traverseCTNode x acc (code ++ ['0']))
          (code ++ ['1'])
termination_by structural n => n

/-- `traverse(node, code)` including the `node is None` early return. -/
def traverseCT (acc : CodeTable) : Option Node → List Char → CodeTable
  | none, _ => acc
  | some n, code => traverseCTNode n acc code

/-- `_build_code_table`: reset the table, then traverse from the root
with the empty code. -/
def buildCodeTable (root : Option Node) : CodeTable :=
  traverseCT [] root []

/-- The merge loop of `build_from_frequencies`
(`while len(priority_queue) > 1`), written with explicit fuel; one
iteration shrinks the queue by exactly one element, so any
`fuel ≥ length - 1` gives the loop's exact behaviour. -/
def mergeLoop : Nat → List Node → List Node
  | 0, pq => pq
  | fuel + 1, pq =>
    if pq.length > 1 then
      match heappop pq with
      | none => pq
      | some (left, pq1) =>
        match heappop pq1 with
        | none => pq
        | some (right, pq2) =>
          -- `if right.freq < left.freq: left, right = right, left`,
          -- then `parent = Node(left.freq + right.freq, left=left, right=right)`
          mergeLoop fuel (heappush pq2
            (if right.freq < left.freq then
              Node.mk (right.freq + left.freq) none (some right) (some left)
            else
              Node.mk (left.freq + right.freq) none (some left) (some right)))
    else pq

/-- `build_from_frequencies(freq_dict)`: the frequency dict is an
association list in insertion order; returns the mutated tree state. -/
def buildFromFrequencies (freq : List (Nat × Nat)) :
    Except HuffError HuffmanTree :=
  if freq = [] then .error .emptyInput
  else if freq.length = 1 then
    -- single-entry special case: a lone leaf with code "0"
    let byteValue := (freq.headD (0, 0)).1
    let f := (freq.headD (0, 0)).2
    let root := Node.mk f (some byteValue) none none
    .ok ⟨some root, [(some byteValue, ['0'])], some root⟩
  else
    let pq0 := freq.map fun bf => Node.mk bf.2 (some bf.1) none none
    let pq := mergeLoop pq0.length (heapify pq0)
    let root := pq.getD 0 dummyNode
    .ok ⟨some root, buildCodeTable (some root), some root⟩

/-- The frequency-counting loop of `build_from_bytes`:
`freq_dict[b] = freq_dict.get(b, 0) + 1` in data order. -/
def countFreq (data : List Nat) : List (Nat × Nat) :=
  data.foldl
    (fun acc b =>
      match acc.find? (fun p => p.1 = b) with
      | some _ => acc.map (fun p => if p.1 = b then (p.1, p.2 + 1) else p)
      | none => acc ++ [(b, 1)])
    []

/-- `build_from_bytes(data)`. -/
def buildFromBytes (data : List Nat) : Except HuffError HuffmanTree :=
  if data = [] then .error .emptyInput
  else buildFromFrequencies (countFreq data)

/-- `encode(byte_value)`: look the byte up in the code table;
`SymbolNotInTable` (a `ValueError`) if absent. -/
def encode (st : HuffmanTree) (byteValue : Nat) : Except HuffError (List Char) :=
  match st.code_table.find? (fun p => p.1 = some byteValue) with
  | none => .error .symbolNotInTable
  | some p => .ok p.2

/-- `encode_bytes(data)`: concatenation of the per-byte codes. -/
def encodeBytes (st : HuffmanTree) (data : List Nat) :
    Except HuffError (List Char) :=
  data.foldlM (fun acc b => do
    let c ← encode st b
    pure (acc ++ c)) []

/-- `decode(bit)`: the stateful single-bit decoder.  Returns the new
state together with `(ok, byte_value)`.  The check order is that of the
source: bit validity, then tree initialisation, then the
root-is-a-leaf special case, then one cursor step. -/
def decode (st : HuffmanTree) (bit : Char) :
    Except HuffError (HuffmanTree × Bool × Option Nat) :=
  if ¬ (bit = '0' ∨ bit = '1') then .error .invalidBit
  else
    match st.root with
    | none => .error .uninitializedTree
    | some root =>
      -- `if self.current_node is None: self.current_node = self.root`
      let cur : Node := match st.current_node with
        | none => root
        | some c => c
      let st1 : HuffmanTree := { st with current_node := some cur }
      if root.isLeaf then .ok (st1, true, root.byteValue)
      else
        match (if bit = '0' then cur.left else cur.right) with
        | none =>
          -- Python: `self.current_node` is now `None` and
          -- `self.current_node.is_leaf()` raises `AttributeError`.
          .error .attributeError
        | some c2 =>
          if c2.isLeaf then
            .ok ({ st1 with current_node := st1.root }, true, c2.byteValue)
          else
            .ok ({ st1 with current_node := some c2 }, false, none)

/-- The loop of `decode_bytes`, accumulating emitted byte values. -/
def decodeBytesAux (st : HuffmanTree) :
    List Char → List (Option Nat) → Except HuffError (HuffmanTree × List (Option Nat))
  | [], acc => .ok (st, acc)
  | bit :: rest, acc =>
    match decode st bit with
    | .error e => .error e
    | .ok (st', emitted, v) =>
      decodeBytesAux st' rest (acc ++ if emitted then [v] else [])

/-- `bytes(result)`: every collected value must be an `int` in `0..255`
(`None` raises `TypeError`, an out-of-range int raises `ValueError`). -/
def bytesOf : List (Option Nat) → Except HuffError (List Nat)
  | [] => .ok []
  | none :: _ => .error .typeError
  | some v :: rest =>
    if v < 256 then do
      let tl ← bytesOf rest
      pure (v :: tl)
    else .error .byteRange

/-- `decode_bytes(bitstring)`: reset the cursor to the root, feed every
bit through `decode`, and convert the collected values to bytes. -/
def decodeBytes (st : HuffmanTree) (bits : List Char) :
    Except HuffError (List Nat) :=
  match decodeBytesAux { st with current_node := st.root } bits [] with
  | .error e => .error e
  | .ok (_, vals) => bytesOf vals

/-! ## Tree serialization and deserialization -/

/-- `_serialize_tree`'s recursive `serialize_node` on a non-`None`
node: `'1' + format(byte_value, '08b')` for a leaf, `'0' + left +
right` for an internal node.  (A leaf with `byte_value = None` would
raise in Python's `format`; it is totalised to byte 0 and never reached
on built trees.) -/
def serializeTreeNode : Node → List Char
  | .mk _ bv l r =>
    if (Node.mk 0 bv l r).isLeaf then '1' :: byteBits (bv.getD 0)
    else
      '0' :: ((match l with
               | none => []
               | some x => serializeTreeNode x) ++
              (match r with
               | none => []
               | some x => serializeTreeNode x))
termination_by structural n => n

/-- `serialize_node(node)` including the `node is None` case (`''`). -/
def serializeNode : Option Node → List Char
  | none => []
  | some n => serializeTreeNode n

/-- `_deserialize_tree(bitstring, pos)`, with explicit recursion fuel:
each recursive call strictly advances `pos` while `pos < len`, so any
`fuel > length - pos` reproduces the Python recursion exactly (the
engine calls it through `deserializeTree`, which supplies such fuel). -/
def deserializeTreeAux (s : List Char) : Nat → Nat → Option Node × Nat
  | 0, pos => (none, pos)
  | fuel + 1, pos =>
    if pos < s.length then
      if s.getD pos ' ' = '1' then
        (some (Node.mk 0 (some (binToNat ((s.drop (pos + 1)).take 8)))
          none none), pos + 9)
      else
        let lp := deserializeTreeAux s fuel (pos + 1)
        let rp := deserializeTreeAux s fuel lp.2
        (some (Node.mk 0 none lp.1 rp.1), rp.2)
    else (none, pos)

/-- `_deserialize_tree(bitstring, pos = 0)` as the engine invokes it. -/
def deserializeTree (s : List Char) (pos : Nat) : Option Node × Nat :=
  deserializeTreeAux s (s.length + 1) pos

/-! ## Bit packing -/

/-- The 8-bit chunking loop of `_bitstring_to_bytes` (applied after
padding); each step consumes 8 characters, so any `fuel ≥ length`
reproduces the loop exactly. -/
def chunksToBytes : Nat → List Char → List Nat
  | _, [] => []
  | 0, _ :: _ => []
  | fuel + 1, s => binToNat (s.take 8) :: chunksToBytes fuel (s.drop 8)

/-- `_bitstring_to_bytes(bitstring)`: zero-pad to a multiple of 8 bits,
then convert each 8-bit group to a byte. -/
def bitstringToBytes (s : List Char) : List Nat :=
  chunksToBytes (s.length + (8 - s.length % 8) % 8)
    (s ++ List.replicate ((8 - s.length % 8) % 8) '0')

/-- `_bytes_to_bitstring(data, num_bits)`: concatenate `format(b,'08b')`
for every byte and truncate to `num_bits`. -/
def bytesToBitstring (data : List Nat) (numBits : Nat) : List Char :=
  ((data.map byteBits).flatten).take numBits

/-! ## The container codec -/

/-- `struct.pack('>I', n)`: 4 big-endian bytes; `struct.error` when the
value does not fit in 32 bits. -/
def packU32 (n : Nat) : Except HuffError (List Nat) :=
  if n < 2 ^ 32 then
    .ok [n / 2 ^ 24 % 256, n / 2 ^ 16 % 256, n / 2 ^ 8 % 256, n % 256]
  else .error .structError

/-- `struct.unpack('>I', b)[0]`: big-endian value of exactly 4 bytes;
`struct.error` on any other length. -/
def unpackU32 (bytes : List Nat) : Except HuffError Nat :=
  if bytes.length = 4 then
    .ok (bytes.foldl (fun acc b => acc * 256 + b) 0)
  else .error .structError

/-- The magic header `b'HUF\x01'`. -/
def magic : List Nat := [72, 85, 70, 1]

/-- `compress(data)`: build the tree from the data, encode, serialize
the tree, pack both bitstrings, and assemble
`header ++ tree_size ++ tree_bytes ++ data_bits ++ data_bytes`
(`tree_bytes = _bitstring_to_bytes(_serialize_tree())` and
`data_bytes = _bitstring_to_bytes(encoded)` are inlined; each Python
exception propagates to the caller in raise order). -/
def compress (data : List Nat) : Except HuffError (List Nat) :=
  if data = [] then .error .emptyInput
  else
    match buildFromBytes data with
    | .error e => .error e
    | .ok st =>
      match encodeBytes st data with
      | .error e => .error e
      | .ok encoded =>
        match packU32 (bitstringToBytes (serializeNode st.root)).length with
        | .error e => .error e
        | .ok treeSize =>
          match packU32 encoded.length with
          | .error e => .error e
          | .ok dataBits =>
            .ok (magic ++ treeSize ++ bitstringToBytes (serializeNode st.root)
              ++ dataBits ++ bitstringToBytes encoded)

/-- `decompress(compressed_data)`: validate the length and magic, slice
out the tree blob, deserialize it, rebuild the code table, and decode
the payload bitstring. -/
def decompress (compressed : List Nat) : Except HuffError (List Nat) :=
  if compressed.length < 16 then .error .invalidContainer
  else if compressed.take 4 ≠ magic then .error .invalidContainer
  else
    match unpackU32 ((compressed.drop 4).take 4) with
    | .error e => .error e
    | .ok treeSize =>
      if 8 + treeSize > compressed.length then .error .invalidContainer
      else
        match unpackU32 ((compressed.drop (8 + treeSize)).take 4) with
        | .error e => .error e
        | .ok dataBits =>
          let treeBytes := (compressed.drop 8).take treeSize
          let dataBytes := compressed.drop (8 + treeSize + 4)
          let root := (deserializeTree
            (bytesToBitstring treeBytes (treeBytes.length * 8)) 0).1
          decodeBytes ⟨root, buildCodeTable root, root⟩
            (bytesToBitstring dataBytes dataBits)

/-! ## Well-formed trees

`build_from_frequencies` only ever creates leaves (with a byte value)
and two-child internal nodes (with `byte_value = None`), so every tree
it produces is a *proper byte tree*. -/

/-- Proper byte trees: leaves hold a byte value `< 256` and no
children; internal nodes hold two children and no byte value. -/
inductive PTree : Node → Prop
  | leaf (f b : Nat) (hb : b < 256) : PTree (.mk f (some b) none none)
  | internal (f : Nat) (l r : Node) (hl : PTree l) (hr : PTree r) :
      PTree (.mk f none (some l) (some r))

/-- The byte values at the leaves, left to right. -/
def leavesOf : Node → List Nat
  | .mk _ bv none none => [bv.getD 0]
  | .mk _ _ (some l) (some r) => leavesOf l ++ leavesOf r
  | .mk _ _ (some l) none => leavesOf l
  | .mk _ _ none (some r) => leavesOf r

theorem leavesOf_leaf (f : Nat) (bv : Option Nat) :
    leavesOf (.mk f bv none none) = [bv.getD 0] := by
  simp [leavesOf]

theorem leavesOf_internal (f : Nat) (bv : Option Nat) (l r : Node) :
    leavesOf (.mk f bv (some l) (some r)) = leavesOf l ++ leavesOf r := by
  simp [leavesOf]

theorem leavesOf_ne_nil (t : Node) (h : PTree t) : leavesOf t ≠ [] := by
  induction h with
  | leaf f b hb => simp [leavesOf_leaf]
  | internal f l r hl hr ihl ihr =>
    rw [leavesOf_internal]
    simp_all

/-- Nodes that are not leaves under `PTree` are two-child internal
nodes; a `PTree` root with at least two leaves cannot be a leaf. -/
theorem PTree_isLeaf_leaves (t : Node) (h : PTree t) (hleaf : t.isLeaf) :
    ∃ f b, b < 256 ∧ t = .mk f (some b) none none := by
  cases h with
  | leaf f b hb => exact ⟨f, b, hb, rfl⟩
  | internal f l r hl hr => simp [Node.isLeaf] at hleaf

/-! ### Invariant preservation through the merge loop -/

/-- All nodes in the queue are proper trees, and the multiset of all
their leaf bytes is exactly the key set of the frequency table. -/
def HeapInv (keys : List Nat) (pq : List Node) : Prop :=
  (∀ n ∈ pq, PTree n) ∧ (pq.flatMap leavesOf).Perm keys

theorem HeapInv.perm {keys : List Nat} {pq pq' : List Node}
    (h : HeapInv keys pq) (hp : pq'.Perm pq) : HeapInv keys pq' :=
  ⟨fun n hn => h.1 n (hp.mem_iff.mp hn), (hp.flatMap_right leavesOf).trans h.2⟩

theorem heappop_some_of_ne_nil (pq : List Node) (h : pq ≠ []) :
    ∃ x rest, heappop pq = some (x, rest) := by
  match pq with
  | [] => exact absurd rfl h
  | a :: t =>
    rw [heappop]
    split
    · exact ⟨_, _, rfl⟩
    · exact ⟨_, _, rfl⟩

theorem mergeLoop_inv (fuel : Nat) (pq : List Node) (keys : List Nat)
    (h : HeapInv keys pq) : HeapInv keys (mergeLoop fuel pq) := by
  induction fuel generalizing pq with
  | zero => exact h
  | succ f ih =>
    rw [mergeLoop]
    split
    · rename_i hlen
      obtain ⟨a, pq1, hpop1⟩ := heappop_some_of_ne_nil pq
        (by intro hn; simp [hn] at hlen)
      have hlen1 := heappop_length pq a pq1 hpop1
      obtain ⟨b, pq2, hpop2⟩ := heappop_some_of_ne_nil pq1
        (by intro hn; rw [hn] at hlen1; simp at hlen1; omega)
      rw [hpop1]
      dsimp only
      rw [hpop2]
      dsimp only
      have hinv2 : HeapInv keys (a :: b :: pq2) :=
        h.perm (((heappop_perm pq1 b pq2 hpop2).cons a).trans
          (heappop_perm pq a pq1 hpop1))
      have hta : PTree a := hinv2.1 a (by simp)
      have htb : PTree b := hinv2.1 b (by simp)
      apply ih
      refine HeapInv.perm ?_ (heappush_perm pq2 _)
      constructor
      · intro n hn
        rcases List.mem_append.mp hn with hmem | hmem
        · exact hinv2.1 n (by simp [hmem])
        · simp only [List.mem_singleton] at hmem
          subst hmem
          split
          · exact PTree.internal _ _ _ htb hta
          · exact PTree.internal _ _ _ hta htb
      · refine List.Perm.trans ?_ hinv2.2
        simp only [List.flatMap_append, List.flatMap_cons, List.flatMap_nil,
          List.append_nil]
        have hparent :
            (leavesOf (if b.freq < a.freq then
              Node.mk (b.freq + a.freq) none (some b) (some a)
            else
              Node.mk (a.freq + b.freq) none (some a) (some b))).Perm
            (leavesOf a ++ leavesOf b) := by
          split
          · rw [leavesOf_internal]; exact List.perm_append_comm
          · rw [leavesOf_internal]
        refine List.Perm.trans (hparent.append_left _) ?_
        refine List.Perm.trans List.perm_append_comm ?_
        exact perm_of_list_eq (List.append_assoc _ _ _)
    · exact h

theorem mergeLoop_length (fuel : Nat) (pq : List Node)
    (h1 : 1 ≤ pq.length) (h2 : pq.length ≤ fuel + 1) :
    (mergeLoop fuel pq).length = 1 := by
  induction fuel generalizing pq with
  | zero =>
    rw [mergeLoop]
    omega
  | succ f ih =>
    rw [mergeLoop]
    split
    · rename_i hlen
      obtain ⟨a, pq1, hpop1⟩ := heappop_some_of_ne_nil pq
        (by intro hn; simp [hn] at hlen)
      have hlen1 := heappop_length pq a pq1 hpop1
      obtain ⟨b, pq2, hpop2⟩ := heappop_some_of_ne_nil pq1
        (by intro hn; rw [hn] at hlen1; simp at hlen1; omega)
      have hlen2 := heappop_length pq1 b pq2 hpop2
      rw [hpop1]
      dsimp only
      rw [hpop2]
      dsimp only
      apply ih
      · rw [heappush_length]; omega
      · rw [heappush_length]; omega
    · omega

theorem flatMap_leaves_map (l : List (Nat × Nat)) :
    (l.flatMap fun bf => leavesOf (Node.mk bf.2 (some bf.1) none none)) =
      l.map Prod.fst := by
  induction l with
  | nil => rfl
  | cons p t ih =>
    simp only [List.flatMap_cons, leavesOf_leaf, Option.getD_some] at ih ⊢
    simp [ih]

/-- What `build_from_frequencies` produces on a table with at least two
entries: a proper tree whose leaf multiset is exactly the key multiset,
with the code table generated from it and the cursor at the root. -/
theorem buildFromFrequencies_spec (freq : List (Nat × Nat))
    (hlen : 2 ≤ freq.length) (hkeys : ∀ p ∈ freq, p.1 < 256) :
    ∃ root, buildFromFrequencies freq =
        .ok ⟨some root, buildCodeTable (some root), some root⟩ ∧
      PTree root ∧ (leavesOf root).Perm (freq.map Prod.fst) := by
  have hne : freq ≠ [] := by intro hn; rw [hn] at hlen; simp at hlen
  have hlen1 : freq.length ≠ 1 := by omega
  set pq0 := freq.map fun bf => Node.mk bf.2 (some bf.1) none none with hpq0
  have hbuild : buildFromFrequencies freq =
      .ok ⟨some ((mergeLoop pq0.length (heapify pq0)).getD 0 dummyNode),
        buildCodeTable
          (some ((mergeLoop pq0.length (heapify pq0)).getD 0 dummyNode)),
        some ((mergeLoop pq0.length (heapify pq0)).getD 0 dummyNode)⟩ := by
    rw [buildFromFrequencies, if_neg hne, if_neg hlen1]
  have hinv0 : HeapInv (freq.map Prod.fst) pq0 := by
    constructor
    · intro n hn
      rw [hpq0] at hn
      obtain ⟨p, hp, hpn⟩ := List.mem_map.mp hn
      rw [← hpn]
      exact PTree.leaf p.2 p.1 (hkeys p hp)
    · rw [hpq0, List.flatMap_map]
      exact perm_of_list_eq (flatMap_leaves_map freq)
  have hinv : HeapInv (freq.map Prod.fst)
      (mergeLoop pq0.length (heapify pq0)) :=
    mergeLoop_inv _ _ _ (hinv0.perm (heapify_perm pq0))
  have hlenfin : (mergeLoop pq0.length (heapify pq0)).length = 1 := by
    apply mergeLoop_length
    · rw [heapify_length, hpq0]
      simp
      omega
    · rw [heapify_length]
      omega
  obtain ⟨root, hroot⟩ : ∃ r, mergeLoop pq0.length (heapify pq0) = [r] := by
    match hm : mergeLoop pq0.length (heapify pq0) with
    | [] => rw [hm] at hlenfin; simp at hlenfin
    | [r] => exact ⟨r, rfl⟩
    | r :: s :: t => rw [hm] at hlenfin; simp at hlenfin
  refine ⟨root, ?_, ?_, ?_⟩
  · rw [hbuild, hroot]
    rfl
  · exact hinv.1 root (by rw [hroot]; simp)
  · have := hinv.2
    rw [hroot] at this
    simpa using this

/-! ## The generated code table

`entriesOf t code` is the list of `(key, code)` pairs the traversal of
`_build_code_table` appends for the subtree `t` reached along `code`;
on trees with distinct leaves the dict-insert accumulator reduces to
plain appending. -/

def entriesOf : Node → List Char → CodeTable
  | .mk _ bv none none, code => [(bv, if code = [] then ['0'] else code)]
  | .mk _ _ (some l) (some r), code =>
    entriesOf l (code ++ ['0']) ++ entriesOf r (code ++ ['1'])
  | .mk _ _ _ _, _ => []

theorem entriesOf_leaf (f : Nat) (bv : Option Nat) (code : List Char) :
    entriesOf (.mk f bv none none) code =
      [(bv, if code = [] then ['0'] else code)] := by
  simp [entriesOf]

theorem entriesOf_internal (f : Nat) (bv : Option Nat) (l r : Node)
    (code : List Char) :
    entriesOf (.mk f bv (some l) (some r)) code =
      entriesOf l (code ++ ['0']) ++ entriesOf r (code ++ ['1']) := by
  simp [entriesOf]

theorem entriesOf_keys (t : Node) (h : PTree t) (code : List Char) :
    (entriesOf t code).map Prod.fst = (leavesOf t).map some := by
  induction h generalizing code with
  | leaf f b hb => simp [entriesOf_leaf, leavesOf_leaf]
  | internal f l r hl hr ihl ihr =>
    rw [entriesOf_internal, leavesOf_internal]
    simp [ihl, ihr]

theorem dictInsert_not_mem (d : CodeTable) (k : Option Nat) (v : List Char)
    (h : ∀ p ∈ d, p.1 ≠ k) : dictInsert d k v = d ++ [(k, v)] := by
  induction d with
  | nil => rfl
  | cons p rest ih =>
    rw [dictInsert]
    rw [if_neg (h p (by simp))]
    rw [ih fun q hq => h q (by simp [hq])]
    rfl

theorem traverseCT_leaf (acc : CodeTable) (f : Nat) (bv : Option Nat)
    (code : List Char) :
    traverseCT acc (some (.mk f bv none none)) code =
      dictInsert acc bv (if code = [] then ['0'] else code) := by
  rw [traverseCT, traverseCTNode]
  simp [Node.isLeaf]

theorem traverseCT_internal (acc : CodeTable) (f : Nat) (bv : Option Nat)
    (l r : Node) (code : List Char) :
    traverseCT acc (some (.mk f bv (some l) (some r))) code =
      traverseCT (traverseCT acc (some l) (code ++ ['0'])) (some r)
        (code ++ ['1']) := by
  rw [traverseCT, traverseCTNode]
  simp [Node.isLeaf, traverseCT]

theorem traverseCT_eq (t : Node) (h : PTree t) :
    ∀ (acc : CodeTable) (code : List Char), (leavesOf t).Nodup →
      (∀ p ∈ acc, ∀ b ∈ leavesOf t, p.1 ≠ some b) →
      traverseCT acc (some t) code = acc ++ entriesOf t code := by
  induction h with
  | leaf f b hb =>
    intro acc code _hnd hdisj
    rw [traverseCT_leaf, entriesOf_leaf]
    exact dictInsert_not_mem acc (some b) _
      fun p hp => hdisj p hp b (by rw [leavesOf_leaf]; simp)
  | internal f l r hl hr ihl ihr =>
    intro acc code hnd hdisj
    rw [leavesOf_internal] at hnd hdisj
    have hndl := hnd.of_append_left
    have hndr := hnd.of_append_right
    have hdisjlr := List.disjoint_of_nodup_append hnd
    rw [traverseCT_internal]
    rw [ihl acc (code ++ ['0']) hndl
      (fun p hp b hb => hdisj p hp b (List.mem_append_left _ hb))]
    rw [ihr _ (code ++ ['1']) hndr ?_]
    · rw [entriesOf_internal, List.append_assoc]
    · intro p hp b hb
      rcases List.mem_append.mp hp with hmem | hmem
      · exact hdisj p hmem b (List.mem_append_right _ hb)
      · have hkey := entriesOf_keys l hl (code ++ ['0'])
        have : p.1 ∈ (leavesOf l).map some := by
          rw [← hkey]
          exact List.mem_map_of_mem Prod.fst hmem
        obtain ⟨bl, hbl, hbleq⟩ := List.mem_map.mp this
        rw [← hbleq]
        intro hcontra
        simp only [Option.some.injEq] at hcontra
        exact absurd hbl (by rw [hcontra]; exact fun hmem' => hdisjlr hmem' hb)

theorem buildCodeTable_eq (t : Node) (h : PTree t)
    (hnd : (leavesOf t).Nodup) :
    buildCodeTable (some t) = entriesOf t [] := by
  rw [buildCodeTable, traverseCT_eq t h [] [] hnd (by simp)]
  rfl

theorem entriesOf_codes_ne_nil (t : Node) (h : PTree t) (code : List Char) :
    ∀ p ∈ entriesOf t code, p.2 ≠ [] := by
  induction h generalizing code with
  | leaf f b hb =>
    intro p hp
    rw [entriesOf_leaf] at hp
    simp only [List.mem_singleton] at hp
    subst hp
    split <;> simp_all
  | internal f l r hl hr ihl ihr =>
    intro p hp
    rw [entriesOf_internal] at hp
    rcases List.mem_append.mp hp with hmem | hmem
    · exact ihl _ p hmem
    · exact ihr _ p hmem

theorem entriesOf_code_extends (t : Node) (h : PTree t) (code : List Char)
    (hcode : code ≠ []) : ∀ p ∈ entriesOf t code, ∃ u, p.2 = code ++ u := by
  induction h generalizing code with
  | leaf f b hb =>
    intro p hp
    rw [entriesOf_leaf, if_neg hcode] at hp
    simp only [List.mem_singleton] at hp
    subst hp
    exact ⟨[], by simp⟩
  | internal f l r hl hr ihl ihr =>
    intro p hp
    rw [entriesOf_internal] at hp
    rcases List.mem_append.mp hp with hmem | hmem
    · obtain ⟨u, hu⟩ := ihl (code ++ ['0']) (by simp) p hmem
      exact ⟨'0' :: u, by rw [hu]; simp⟩
    · obtain ⟨u, hu⟩ := ihr (code ++ ['1']) (by simp) p hmem
      exact ⟨'1' :: u, by rw [hu]; simp⟩

/-- Codes of entries with distinct keys are never prefixes of one
another: inside one subtree by induction, across the two subtrees
because the codes diverge right after the shared prefix. -/
theorem entriesOf_prefix_free (t : Node) (h : PTree t) (code : List Char) :
    ∀ p q, p ∈ entriesOf t code → q ∈ entriesOf t code → p.1 ≠ q.1 →
      ¬ p.2 <+: q.2 := by
  induction h generalizing code with
  | leaf f b hb =>
    intro p q hp hq hne
    rw [entriesOf_leaf] at hp hq
    simp only [List.mem_singleton] at hp hq
    subst hp
    subst hq
    exact absurd rfl hne
  | internal f l r hl hr ihl ihr =>
    intro p q hp hq hne
    rw [entriesOf_internal] at hp hq
    rcases List.mem_append.mp hp with hpl | hpr <;>
      rcases List.mem_append.mp hq with hql | hqr
    · exact ihl _ p q hpl hql hne
    · obtain ⟨u, hu⟩ := entriesOf_code_extends l hl _ (by simp) p hpl
      obtain ⟨v, hv⟩ := entriesOf_code_extends r hr _ (by simp) q hqr
      rw [hu, hv]
      intro hpre
      simp only [List.append_assoc, List.prefix_append_right_inj] at hpre
      rcases hpre with ⟨w, hw⟩
      simp at hw
    · obtain ⟨u, hu⟩ := entriesOf_code_extends r hr _ (by simp) p hpr
      obtain ⟨v, hv⟩ := entriesOf_code_extends l hl _ (by simp) q hql
      rw [hu, hv]
      intro hpre
      simp only [List.append_assoc, List.prefix_append_right_inj] at hpre
      rcases hpre with ⟨w, hw⟩
      simp at hw
    · exact ihr _ p q hpr hqr hne

/-! ## Serialization round-trip -/

/-- The tree `_deserialize_tree` reconstructs from a serialized proper
tree: the same shape and leaf bytes, all frequencies 0 and internal
byte values `None`. -/
def strip : Node → Node
  | .mk _ bv none none => .mk 0 bv none none
  | .mk _ _ (some l) (some r) => .mk 0 none (some (strip l)) (some (strip r))
  | .mk _ _ (some l) none => .mk 0 none (some (strip l)) none
  | .mk _ _ none (some r) => .mk 0 none none (some (strip r))

/-- Every `freq` field of the tree is 0. -/
def allFreqZero : Node → Prop
  | .mk f _ none none => f = 0
  | .mk f _ (some l) (some r) => f = 0 ∧ allFreqZero l ∧ allFreqZero r
  | .mk f _ (some l) none => f = 0 ∧ allFreqZero l
  | .mk f _ none (some r) => f = 0 ∧ allFreqZero r

theorem strip_leaf (f : Nat) (bv : Option Nat) :
    strip (.mk f bv none none) = .mk 0 bv none none := by
  simp [strip]

theorem strip_internal (f : Nat) (bv : Option Nat) (l r : Node) :
    strip (.mk f bv (some l) (some r)) =
      .mk 0 none (some (strip l)) (some (strip r)) := by
  simp [strip]

theorem strip_ptree (t : Node) (h : PTree t) : PTree (strip t) := by
  induction h with
  | leaf f b hb => rw [strip_leaf]; exact PTree.leaf 0 b hb
  | internal f l r hl hr ihl ihr =>
    rw [strip_internal]; exact PTree.internal 0 _ _ ihl ihr

theorem strip_allFreqZero (t : Node) (h : PTree t) : allFreqZero (strip t) := by
  induction h with
  | leaf f b hb => rw [strip_leaf]; simp [allFreqZero]
  | internal f l r hl hr ihl ihr =>
    rw [strip_internal]
    exact ⟨rfl, ihl, ihr⟩

theorem entriesOf_strip (t : Node) (h : PTree t) (code : List Char) :
    entriesOf (strip t) code = entriesOf t code := by
  induction h generalizing code with
  | leaf f b hb => rw [strip_leaf, entriesOf_leaf, entriesOf_leaf]
  | internal f l r hl hr ihl ihr =>
    rw [strip_internal, entriesOf_internal, entriesOf_internal, ihl, ihr]

theorem leavesOf_strip (t : Node) (h : PTree t) :
    leavesOf (strip t) = leavesOf t := by
  induction h with
  | leaf f b hb => rw [strip_leaf, leavesOf_leaf, leavesOf_leaf]
  | internal f l r hl hr ihl ihr =>
    rw [strip_internal, leavesOf_internal, leavesOf_internal, ihl, ihr]

theorem serializeNode_leaf (f b : Nat) :
    serializeNode (some (.mk f (some b) none none)) = '1' :: byteBits b := by
  rw [serializeNode, serializeTreeNode]
  simp [Node.isLeaf]

theorem serializeNode_internal (f : Nat) (l r : Node) :
    serializeNode (some (.mk f none (some l) (some r))) =
      '0' :: (serializeNode (some l) ++ serializeNode (some r)) := by
  rw [serializeNode, serializeTreeNode]
  simp [Node.isLeaf, serializeNode]

theorem serializeNode_length_pos (t : Node) (h : PTree t) :
    0 < (serializeNode (some t)).length := by
  cases h with
  | leaf f b hb => rw [serializeNode_leaf]; simp
  | internal f l r hl hr => rw [serializeNode_internal]; simp

theorem getD_append_cons (l₁ l₂ : List Char) (x d : Char) :
    (l₁ ++ x :: l₂).getD l₁.length d = x := by
  simp [List.getD]
  exact List.getElem_of_append rfl rfl

/-- `_deserialize_tree` inverts `_serialize_tree` at any position and
with any trailing bits, consuming exactly the serialized segment. -/
theorem deserialize_serialize (t : Node) (h : PTree t) :
    ∀ (pre rest : List Char) (fuel : Nat),
      (serializeNode (some t)).length ≤ fuel →
      deserializeTreeAux (pre ++ serializeNode (some t) ++ rest) fuel
          pre.length =
        (some (strip t), pre.length + (serializeNode (some t)).length) := by
  induction h with
  | leaf f b hb =>
    intro pre rest fuel hfuel
    rw [serializeNode_leaf] at hfuel ⊢
    have hlen8 := byteBits_length b hb
    match fuel, hfuel with
    | fl + 1, hf =>
      rw [deserializeTreeAux]
      simp only [List.append_assoc, List.cons_append]
      rw [if_pos (by simp)]
      rw [if_pos (getD_append_cons pre (byteBits b ++ rest) '1' ' ')]
      have hdrop : ((pre ++ '1' :: (byteBits b ++ rest)).drop
          (pre.length + 1)) = byteBits b ++ rest := by
        have h1 : pre ++ '1' :: (byteBits b ++ rest) =
            (pre ++ ['1']) ++ (byteBits b ++ rest) := by simp
        have h2 : pre.length + 1 = (pre ++ ['1']).length + 0 := by simp
        rw [h1, h2]
        simp [@List.drop_append Char (pre ++ ['1']) (byteBits b ++ rest) 0]
      rw [hdrop]
      rw [← hlen8, List.take_left]
      rw [binToNat_byteBits, strip_leaf]
      simp [hlen8]
  | internal f l r hl hr ihl ihr =>
    intro pre rest fuel hfuel
    rw [serializeNode_internal] at hfuel ⊢
    have hposl := serializeNode_length_pos l hl
    have hposr := serializeNode_length_pos r hr
    match fuel, hfuel with
    | fl + 1, hf =>
      rw [deserializeTreeAux]
      simp only [List.append_assoc, List.cons_append]
      rw [if_pos (by simp)]
      rw [if_neg (by rw [getD_append_cons]; decide)]
      have hlfuel : (serializeNode (some l)).length ≤ fl := by
        simp only [List.length_cons, List.length_append] at hf
        omega
      have hrfuel : (serializeNode (some r)).length ≤ fl := by
        simp only [List.length_cons, List.length_append] at hf
        omega
      have hs : (pre ++ ['0']) ++ serializeNode (some l) ++
            (serializeNode (some r) ++ rest) =
          pre ++ '0' :: (serializeNode (some l) ++
            (serializeNode (some r) ++ rest)) := by simp
      have hleft := ihl (pre ++ ['0']) (serializeNode (some r) ++ rest) fl
        hlfuel
      rw [hs] at hleft
      have hprelen : (pre ++ ['0']).length = pre.length + 1 := by simp
      rw [hprelen] at hleft
      have hs2 : (pre ++ '0' :: serializeNode (some l)) ++
            serializeNode (some r) ++ rest =
          pre ++ '0' :: (serializeNode (some l) ++
            (serializeNode (some r) ++ rest)) := by simp
      have hright := ihr (pre ++ '0' :: serializeNode (some l)) rest fl
        hrfuel
      rw [hs2] at hright
      have hprelen2 : (pre ++ '0' :: serializeNode (some l)).length =
          pre.length + 1 + (serializeNode (some l)).length := by
        simp
        omega
      rw [hprelen2] at hright
      rw [hleft]
      dsimp only
      rw [hright]
      rw [strip_internal]
      simp only [List.length_cons, List.length_append, Prod.mk.injEq]
      exact ⟨trivial, by omega⟩

/-- The top-level call `_deserialize_tree(bits, 0)` as made by
`decompress`, including arbitrary trailing padding bits. -/
theorem deserializeTree_serialize (t : Node) (h : PTree t)
    (rest : List Char) :
    deserializeTree (serializeNode (some t) ++ rest) 0 =
      (some (strip t), (serializeNode (some t)).length) := by
  rw [deserializeTree]
  have := deserialize_serialize t h [] rest
    ((serializeNode (some t) ++ rest).length + 1) (by simp; omega)
  simpa using this

/-! ## The decoder walk

`rpaths t` lists, for every leaf of `t`, its byte value together with
the root-to-leaf path of the subtree `t` (`'0'` = left, `'1'` =
right); on a multi-symbol tree these are exactly the code-table
entries. -/

def rpaths : Node → List (Option Nat × List Char)
  | .mk _ bv none none => [(bv, [])]
  | .mk _ _ (some l) (some r) =>
    (rpaths l).map (fun p => (p.1, '0' :: p.2)) ++
      (rpaths r).map (fun p => (p.1, '1' :: p.2))
  | .mk _ _ _ _ => []

theorem rpaths_leaf (f : Nat) (bv : Option Nat) :
    rpaths (.mk f bv none none) = [(bv, [])] := by
  simp [rpaths]

theorem rpaths_internal (f : Nat) (bv : Option Nat) (l r : Node) :
    rpaths (.mk f bv (some l) (some r)) =
      (rpaths l).map (fun p => (p.1, '0' :: p.2)) ++
        (rpaths r).map (fun p => (p.1, '1' :: p.2)) := by
  simp [rpaths]

theorem entriesOf_eq_rpaths (t : Node) (h : PTree t) :
    ∀ code : List Char, code ≠ [] →
      entriesOf t code = (rpaths t).map fun p => (p.1, code ++ p.2) := by
  induction h with
  | leaf f b hb =>
    intro code hcode
    rw [entriesOf_leaf, rpaths_leaf, if_neg hcode]
    simp
  | internal f l r hl hr ihl ihr =>
    intro code hcode
    rw [entriesOf_internal, rpaths_internal,
      ihl (code ++ ['0']) (by simp), ihr (code ++ ['1']) (by simp)]
    simp [List.map_map, Function.comp_def, List.append_assoc]

theorem buildCodeTable_internal_eq_rpaths (root : Node) (h : PTree root)
    (hnl : root.isLeaf = false) (hnd : (leavesOf root).Nodup) :
    buildCodeTable (some root) = rpaths root := by
  rw [buildCodeTable_eq root h hnd]
  cases h with
  | leaf f b hb => simp [Node.isLeaf] at hnl
  | internal f l r hl hr =>
    rw [entriesOf_internal, rpaths_internal]
    simp only [List.nil_append]
    rw [entriesOf_eq_rpaths l hl ['0'] (by simp),
      entriesOf_eq_rpaths r hr ['1'] (by simp)]
    simp

/-- One decoder step left: on bit `'0'` from an internal current node,
the cursor moves to the left child, emitting its byte value when it is
a leaf. -/
theorem decode_step0 (R : Node) (tbl : CodeTable) (f : Nat) (l r : Node)
    (hR : R.isLeaf = false) :
    decode ⟨some R, tbl, some (.mk f none (some l) (some r))⟩ '0' =
      if l.isLeaf then .ok (⟨some R, tbl, some R⟩, true, l.byteValue)
      else .ok (⟨some R, tbl, some l⟩, false, none) := by
  rw [decode]
  rw [if_neg (by decide)]
  dsimp only
  rw [hR]
  simp only [Bool.false_eq_true, if_false]
  simp [Node.left]

/-- One decoder step right, symmetrically. -/
theorem decode_step1 (R : Node) (tbl : CodeTable) (f : Nat) (l r : Node)
    (hR : R.isLeaf = false) :
    decode ⟨some R, tbl, some (.mk f none (some l) (some r))⟩ '1' =
      if r.isLeaf then .ok (⟨some R, tbl, some R⟩, true, r.byteValue)
      else .ok (⟨some R, tbl, some r⟩, false, none) := by
  rw [decode]
  rw [if_neg (by decide)]
  dsimp only
  rw [hR]
  simp only [Bool.false_eq_true, if_false]
  simp [Node.right]

/-- Walking one complete leaf path of the subtree `t` (the cursor
standing on `t`) emits exactly that leaf's byte value and resets the
cursor to the root. -/
theorem decode_walk_emit (t : Node) (ht : PTree t) :
    t.isLeaf = false →
    ∀ (k : Option Nat) (p : List Char), (k, p) ∈ rpaths t →
    ∀ (R : Node) (tbl : CodeTable) (rest : List Char)
      (acc : List (Option Nat)), R.isLeaf = false →
      decodeBytesAux ⟨some R, tbl, some t⟩ (p ++ rest) acc =
        decodeBytesAux ⟨some R, tbl, some R⟩ rest (acc ++ [k]) := by
  induction ht with
  | leaf f b hb => intro hnl; simp [Node.isLeaf] at hnl
  | internal f l r hl hr ihl ihr =>
    intro _ k p hp R tbl rest acc hR
    rw [rpaths_internal] at hp
    rcases List.mem_append.mp hp with hmem | hmem
    · obtain ⟨q, hq, hqe⟩ := List.mem_map.mp hmem
      obtain ⟨hk, hpe⟩ := Prod.mk.injEq .. ▸ hqe
      subst hk
      rw [← hpe]
      rw [List.cons_append, decodeBytesAux, decode_step0 R tbl f l r hR]
      cases hl with
      | leaf f2 b2 hb2 =>
        rw [rpaths_leaf] at hq
        simp only [List.mem_singleton] at hq
        subst hq
        simp [Node.isLeaf, Node.byteValue, decodeBytesAux]
      | internal f2 l2 r2 hl2 hr2 =>
        simp only [Node.isLeaf, Bool.false_eq_true, if_false,
          List.append_nil]
        rw [ihl (by simp [Node.isLeaf]) q.1 q.2 hq R tbl rest acc hR]
    · obtain ⟨q, hq, hqe⟩ := List.mem_map.mp hmem
      obtain ⟨hk, hpe⟩ := Prod.mk.injEq .. ▸ hqe
      subst hk
      rw [← hpe]
      rw [List.cons_append, decodeBytesAux, decode_step1 R tbl f l r hR]
      cases hr with
      | leaf f2 b2 hb2 =>
        rw [rpaths_leaf] at hq
        simp only [List.mem_singleton] at hq
        subst hq
        simp [Node.isLeaf, Node.byteValue, decodeBytesAux]
      | internal f2 l2 r2 hl2 hr2 =>
        simp only [Node.isLeaf, Bool.false_eq_true, if_false,
          List.append_nil]
        rw [ihr (by simp [Node.isLeaf]) q.1 q.2 hq R tbl rest acc hR]

/-- Walking a strict prefix of a leaf path emits nothing and leaves the
cursor mid-traversal on some node, without error. -/
theorem decode_walk_partial (t : Node) (ht : PTree t) :
    t.isLeaf = false →
    ∀ (k : Option Nat) (p : List Char), (k, p) ∈ rpaths t →
    ∀ q : List Char, q <+: p → q ≠ p →
    ∀ (R : Node) (tbl : CodeTable) (acc : List (Option Nat)),
      R.isLeaf = false →
      ∃ u : Node, decodeBytesAux ⟨some R, tbl, some t⟩ q acc =
        .ok (⟨some R, tbl, some u⟩, acc) := by
  induction ht with
  | leaf f b hb => intro hnl; simp [Node.isLeaf] at hnl
  | internal f l r hl hr ihl ihr =>
    intro _ k p hp q hqp hqne R tbl acc hR
    match q with
    | [] => exact ⟨.mk f none (some l) (some r), by rw [decodeBytesAux]⟩
    | c :: q' =>
      rw [rpaths_internal] at hp
      rcases List.mem_append.mp hp with hmem | hmem
      · obtain ⟨w, hw, hwe⟩ := List.mem_map.mp hmem
        obtain ⟨hk, hpe⟩ := Prod.mk.injEq .. ▸ hwe
        rw [← hpe] at hqp hqne
        obtain ⟨hc, hq'⟩ := List.cons_prefix_cons.mp hqp
        subst hc
        rw [decodeBytesAux, decode_step0 R tbl f l r hR]
        cases hl with
        | leaf f2 b2 hb2 =>
          rw [rpaths_leaf] at hw
          simp only [List.mem_singleton] at hw
          subst hw
          simp only at hq' hqne
          have : q' = [] := List.prefix_nil.mp hq'
          subst this
          exact absurd rfl hqne
        | internal f2 l2 r2 hl2 hr2 =>
          simp only [Node.isLeaf, Bool.false_eq_true, if_false,
            List.append_nil]
          have hne : q' ≠ w.2 := by
            intro hcontra
            exact hqne (by rw [hcontra])
          exact ihl (by simp [Node.isLeaf]) w.1 w.2 hw q' hq' hne R tbl
            acc hR
      · obtain ⟨w, hw, hwe⟩ := List.mem_map.mp hmem
        obtain ⟨hk, hpe⟩ := Prod.mk.injEq .. ▸ hwe
        rw [← hpe] at hqp hqne
        obtain ⟨hc, hq'⟩ := List.cons_prefix_cons.mp hqp
        subst hc
        rw [decodeBytesAux, decode_step1 R tbl f l r hR]
        cases hr with
        | leaf f2 b2 hb2 =>
          rw [rpaths_leaf] at hw
          simp only [List.mem_singleton] at hw
          subst hw
          simp only at hq' hqne
          have : q' = [] := List.prefix_nil.mp hq'
          subst this
          exact absurd rfl hqne
        | internal f2 l2 r2 hl2 hr2 =>
          simp only [Node.isLeaf, Bool.false_eq_true, if_false,
            List.append_nil]
          have hne : q' ≠ w.2 := by
            intro hcontra
            exact hqne (by rw [hcontra])
          exact ihr (by simp [Node.isLeaf]) w.1 w.2 hw q' hq' hne R tbl
            acc hR

/-- Decoding the concatenation of complete leaf paths emits their byte
values in order. -/
theorem decode_walk_multi (R : Node) (hR : PTree R) (hnl : R.isLeaf = false)
    (tbl : CodeTable) :
    ∀ (items : List (Option Nat × List Char)), (∀ it ∈ items, it ∈ rpaths R) →
    ∀ (rest : List Char) (acc : List (Option Nat)),
      decodeBytesAux ⟨some R, tbl, some R⟩
          ((items.map Prod.snd).flatten ++ rest) acc =
        decodeBytesAux ⟨some R, tbl, some R⟩ rest
          (acc ++ items.map Prod.fst) := by
  intro items
  induction items with
  | nil => intro _ rest acc; simp
  | cons it its ih =>
    intro hmem rest acc
    simp only [List.map_cons, List.flatten_cons, List.append_assoc]
    rw [decode_walk_emit R hR hnl it.1 it.2 (by simpa using hmem it (by simp))
      R tbl _ acc hnl]
    rw [ih (fun x hx => hmem x (by simp [hx])) rest (acc ++ [it.1])]
    simp

/-! ## Encoding ↔ code-table entries -/

theorem encode_fold_items (st : HuffmanTree) :
    ∀ (data : List Nat) (acc e : List Char),
      data.foldlM (fun acc b => do
        let c ← encode st b
        pure (acc ++ c)) acc = .ok e →
      ∃ items : List (Option Nat × List Char),
        (∀ it ∈ items, it ∈ st.code_table) ∧
        items.map Prod.fst = data.map some ∧
        e = acc ++ (items.map Prod.snd).flatten := by
  intro data
  induction data with
  | nil =>
    intro acc e h
    simp only [List.foldlM_nil] at h
    refine ⟨[], by simp, by simp, ?_⟩
    simp only [pure, Except.pure] at h
    simp only [Except.ok.injEq] at h
    simp [h]
  | cons b bs ih =>
    intro acc e h
    rw [List.foldlM_cons] at h
    match henc : encode st b with
    | .error e2 =>
      rw [henc] at h
      simp only [bind, Except.bind, Except.map] at h
      exact Except.noConfusion h
    | .ok c =>
      rw [henc] at h
      simp only [bind, Except.bind, pure, Except.pure] at h
      obtain ⟨items, hmem, hkeys, he⟩ := ih (acc ++ c) e h
      rw [encode] at henc
      match hf : st.code_table.find? (fun p => p.1 = some b) with
      | none => rw [hf] at henc; exact absurd henc (by simp)
      | some p =>
        rw [hf] at henc
        simp only [Except.ok.injEq] at henc
        have hp : p ∈ st.code_table := List.mem_of_find?_eq_some hf
        have hp1 : p.1 = some b := by
          have := List.find?_some hf
          exact of_decide_eq_true this
        refine ⟨p :: items, ?_, ?_, ?_⟩
        · intro it hit
          rcases List.mem_cons.mp hit with hit | hit
          · rw [hit]; exact hp
          · exact hmem it hit
        · simp [hp1, hkeys]
        · rw [he]
          simp [henc]

theorem encodeBytes_items (st : HuffmanTree) (data : List Nat)
    (e : List Char) (h : encodeBytes st data = .ok e) :
    ∃ items : List (Option Nat × List Char),
      (∀ it ∈ items, it ∈ st.code_table) ∧
      items.map Prod.fst = data.map some ∧
      e = (items.map Prod.snd).flatten := by
  obtain ⟨items, h1, h2, h3⟩ := encode_fold_items st data [] e h
  exact ⟨items, h1, h2, by simpa using h3⟩

theorem bytesOf_map_some (data : List Nat) (h : ∀ d ∈ data, d < 256) :
    bytesOf (data.map some) = .ok data := by
  induction data with
  | nil => rfl
  | cons d ds ih =>
    simp only [List.map_cons, bytesOf]
    rw [if_pos (h d (by simp))]
    rw [ih fun x hx => h x (by simp [hx])]
    rfl

/-- A `PTree` with at least two leaves is not a leaf node. -/
theorem PTree_two_leaves_not_leaf (t : Node) (h : PTree t)
    (h2 : 2 ≤ (leavesOf t).length) : t.isLeaf = false := by
  cases h with
  | leaf f b hb => rw [leavesOf_leaf] at h2; simp at h2
  | internal f l r hl hr => simp [Node.isLeaf]

/-! ## Container arithmetic -/

theorem packU32_spec (n : Nat) (bytes : List Nat) (h : packU32 n = .ok bytes) :
    bytes.length = 4 ∧ unpackU32 bytes = .ok n := by
  rw [packU32] at h
  split at h
  · rename_i hn
    simp only [Except.ok.injEq] at h
    subst h
    refine ⟨rfl, ?_⟩
    rw [unpackU32, if_pos (by simp)]
    simp only [List.foldl_cons, List.foldl_nil, Except.ok.injEq]
    have h24 : (2:Nat) ^ 24 = 16777216 := by norm_num
    have h16 : (2:Nat) ^ 16 = 65536 := by norm_num
    have h8 : (2:Nat) ^ 8 = 256 := by norm_num
    have h32 : (2:Nat) ^ 32 = 4294967296 := by norm_num
    rw [h24, h16, h8] ; rw [h32] at hn
    omega
  · simp at h

theorem take_append_of_length (l₁ l₂ : List Nat) (n : Nat)
    (h : l₁.length = n) : (l₁ ++ l₂).take n = l₁ := by
  rw [← h]
  exact List.take_left l₁ l₂

theorem drop_append_of_length (l₁ l₂ : List Nat) (n : Nat)
    (h : l₁.length = n) : (l₁ ++ l₂).drop n = l₂ := by
  rw [← h]
  exact List.drop_left l₁ l₂

/-! ## Serialized length determined by the shape -/

/-- Number of leaves of the tree. -/
def leafCount : Node → Nat
  | .mk _ _ none none => 1
  | .mk _ _ l r =>
    (match l with | none => 0 | some x => leafCount x) +
    (match r with | none => 0 | some x => leafCount x)
termination_by structural n => n

/-- Number of internal (two-child or one-child) nodes of the tree. -/
def internalCount : Node → Nat
  | .mk _ _ none none => 0
  | .mk _ _ l r =>
    1 + (match l with | none => 0 | some x => internalCount x) +
      (match r with | none => 0 | some x => internalCount x)
termination_by structural n => n

theorem leafCount_leaf (f : Nat) (bv : Option Nat) :
    leafCount (.mk f bv none none) = 1 := rfl

theorem leafCount_internal (f : Nat) (bv : Option Nat) (l r : Node) :
    leafCount (.mk f bv (some l) (some r)) = leafCount l + leafCount r := rfl

theorem internalCount_leaf (f : Nat) (bv : Option Nat) :
    internalCount (.mk f bv none none) = 0 := rfl

theorem internalCount_internal (f : Nat) (bv : Option Nat) (l r : Node) :
    internalCount (.mk f bv (some l) (some r)) =
      1 + internalCount l + internalCount r := rfl

theorem serializeNode_length (t : Node) (h : PTree t) :
    (serializeNode (some t)).length = internalCount t + 9 * leafCount t := by
  induction h with
  | leaf f b hb =>
    rw [serializeNode_leaf, leafCount_leaf, internalCount_leaf]
    simp [byteBits_length b hb]
  | internal f l r hl hr ihl ihr =>
    rw [serializeNode_internal, leafCount_internal, internalCount_internal]
    simp only [List.length_cons, List.length_append, ihl, ihr]
    omega

/-! ## The claims -/

/-- C1: round-trip identity fails on the code at the concrete input
`b"A"`: `compress(b"A")` yields this valid 15-byte container (header,
2-byte tree blob for the single leaf 65, one payload bit), but
`decompress` rejects every buffer shorter than 16 bytes with the
`InvalidContainer` condition, so `decompress(compress(b"A"))` raises
instead of returning `b"A"`. -/
theorem claim1_single_byte_roundtrip_fails :
    compress [65] = .ok [72, 85, 70, 1, 0, 0, 0, 2, 160, 128, 0, 0, 0, 1, 0] ∧
    decompress [72, 85, 70, 1, 0, 0, 0, 2, 160, 128, 0, 0, 0, 1, 0] =
      .error .invalidContainer := by
  decide

/-- C2 (counterexample): on the empty bitstring, `decode_bytes` of a
freshly constructed `HuffmanTree` returns the empty byte string instead
of failing with `UninitializedTree`. -/
theorem claim2_counterexample :
    decodeBytes htInit [] = .ok [] ∧
    decodeBytes htInit [] ≠ .error .uninitializedTree := by
  decide

/-- C2 (amended): for every *non-empty* bitstring whose first character
is a valid bit, `decode_bytes` on a `HuffmanTree` on which no tree has
been built fails with the `UninitializedTree` condition.  (The empty
bitstring returns `b""`; a non-bit first character fails with
`InvalidBit` instead, since `decode` checks the bit first.) -/
theorem claim2_uninitialized_tree (bit : Char) (s : List Char)
    (hbit : bit = '0' ∨ bit = '1') :
    decodeBytes htInit (bit :: s) = .error .uninitializedTree := by
  rcases hbit with h | h <;> subst h <;> rfl

/-- C2 (witness): the amended claim at the concrete bitstring `"0"`. -/
theorem claim2_witness :
    (('0' : Char) = '0' ∨ ('0' : Char) = '1') ∧
    decodeBytes htInit ['0'] = .error .uninitializedTree :=
  ⟨Or.inl rfl, claim2_uninitialized_tree '0' [] (Or.inl rfl)⟩

/-- The tree-blob byte length stated in a container: the big-endian
value of bytes 4..8 (what `struct.unpack('>I', data[4:8])` reads). -/
def treeSizeOf (d : List Nat) : Nat :=
  ((d.drop 4).take 4).foldl (fun acc b => acc * 256 + b) 0

/-- C3: `decompress` fails with the `InvalidContainer` condition
whenever the buffer is shorter than the fixed header size (16 bytes in
the code), whenever the 4-byte magic differs from `b"HUF\x01"`, and
whenever the stated tree-blob byte length makes the blob extend past
the end of the buffer. -/
theorem claim3_invalid_container (d : List Nat)
    (h : d.length < 16 ∨ d.take 4 ≠ magic ∨ d.length < 8 + treeSizeOf d) :
    decompress d = .error .invalidContainer := by
  by_cases h1 : d.length < 16
  · rw [decompress, if_pos h1]
  · by_cases h2 : d.take 4 ≠ magic
    · rw [decompress, if_neg h1, if_pos h2]
    · have h3 : d.length < 8 + treeSizeOf d := by
        rcases h with h | h | h
        · exact absurd h h1
        · exact absurd h h2
        · exact h
      rw [decompress, if_neg h1, if_neg h2]
      have hu : unpackU32 ((d.drop 4).take 4) = .ok (treeSizeOf d) := by
        rw [unpackU32, if_pos ?_, treeSizeOf]
        simp only [List.length_take, List.length_drop]
        omega
      rw [hu]
      dsimp only
      rw [if_pos (by omega)]

/-- C3 (witness): the empty buffer is shorter than 16 bytes and is
rejected with `InvalidContainer`. -/
theorem claim3_witness :
    (([] : List Nat).length < 16 ∨ ([] : List Nat).take 4 ≠ magic ∨
      ([] : List Nat).length < 8 + treeSizeOf []) ∧
    decompress [] = .error .invalidContainer :=
  ⟨Or.inl (by decide), claim3_invalid_container [] (Or.inl (by decide))⟩

/-- C4: when the tree root is itself a leaf, `decode` on any valid bit
returns `(True, root.byte_value)` and leaves the whole decoder state,
in particular the cursor, unchanged — one emitted symbol per input
bit, for either bit value. -/
theorem claim4_leaf_root_decode (st : HuffmanTree) (f b : Nat) (c : Node)
    (bit : Char) (hroot : st.root = some (.mk f (some b) none none))
    (hcur : st.current_node = some c) (hbit : bit = '0' ∨ bit = '1') :
    decode st bit = .ok (st, true, some b) := by
  obtain ⟨r0, tbl, cur⟩ := st
  simp only at hroot hcur
  subst hroot
  subst hcur
  rcases hbit with h | h <;> subst h <;> rfl

/-- C4 (witness): a concrete single-leaf tree state decoding the bit
`'1'`. -/
theorem claim4_witness :
    decode ⟨some (.mk 5 (some 65) none none), [(some 65, ['0'])],
        some (.mk 5 (some 65) none none)⟩ '1' =
      .ok (⟨some (.mk 5 (some 65) none none), [(some 65, ['0'])],
        some (.mk 5 (some 65) none none)⟩, true, some 65) :=
  claim4_leaf_root_decode _ 5 65 _ '1' rfl rfl (Or.inr rfl)

/-- C5: for every tree built from a non-empty frequency table (distinct
byte keys), `_deserialize_tree` applied to the output of
`_serialize_tree` at position 0 reconstructs a tree with the same
generated code table, consuming exactly the serialized bits; all
frequency values in the reconstructed tree are 0. -/
theorem claim5_tree_serialization_roundtrip (freq : List (Nat × Nat))
    (hne : freq ≠ []) (hnd : (freq.map Prod.fst).Nodup)
    (hkeys : ∀ p ∈ freq, p.1 < 256) :
    ∃ (st : HuffmanTree) (t' : Node),
      buildFromFrequencies freq = .ok st ∧
      deserializeTree (serializeNode st.root) 0 =
        (some t', (serializeNode st.root).length) ∧
      buildCodeTable (some t') = buildCodeTable st.root ∧
      allFreqZero t' := by
  match freq with
  | [] => exact absurd rfl hne
  | [(b, v)] =>
    have hb : b < 256 := hkeys (b, v) (by simp)
    have hpt : PTree (.mk v (some b) none none) := PTree.leaf v b hb
    refine ⟨⟨some (.mk v (some b) none none), [(some b, ['0'])],
      some (.mk v (some b) none none)⟩, strip (.mk v (some b) none none),
      rfl, ?_, ?_, strip_allFreqZero _ hpt⟩
    · have := deserializeTree_serialize _ hpt []
      simpa using this
    · rw [strip_leaf]
      rw [buildCodeTable, buildCodeTable]
      rw [traverseCT_leaf, traverseCT_leaf]
  | (p₁ :: p₂ :: rest) =>
    obtain ⟨root, hbuild, hpt, hperm⟩ :=
      buildFromFrequencies_spec (p₁ :: p₂ :: rest) (by simp) hkeys
    have hndl : (leavesOf root).Nodup := hperm.nodup_iff.mpr hnd
    refine ⟨_, strip root, hbuild, ?_, ?_, strip_allFreqZero root hpt⟩
    · have := deserializeTree_serialize root hpt []
      simpa using this
    · have h1 : buildCodeTable (some (strip root)) =
          entriesOf (strip root) [] :=
        buildCodeTable_eq (strip root) (strip_ptree root hpt)
          (by rw [leavesOf_strip root hpt]; exact hndl)
      have h2 : buildCodeTable (some root) = entriesOf root [] :=
        buildCodeTable_eq root hpt hndl
      rw [h1, h2, entriesOf_strip root hpt]

/-- C5 (witness): the round-trip at the concrete two-symbol table
`{65: 1, 66: 1}`. -/
theorem claim5_witness :
    ([(65, 1), (66, 1)] : List (Nat × Nat)) ≠ [] ∧
    (∃ (st : HuffmanTree) (t' : Node),
      buildFromFrequencies [(65, 1), (66, 1)] = .ok st ∧
      deserializeTree (serializeNode st.root) 0 =
        (some t', (serializeNode st.root).length) ∧
      buildCodeTable (some t') = buildCodeTable st.root ∧
      allFreqZero t') :=
  ⟨by decide, claim5_tree_serialization_roundtrip [(65, 1), (66, 1)]
    (by decide) (by decide) (by decide)⟩

/-- C6: for every non-empty frequency table with distinct byte keys and
positive counts, the generated code table has exactly one entry per
distinct key (its key list is a permutation of the table's keys), every
code is non-empty, and for any two entries with distinct keys neither
code is a prefix of the other. -/
theorem claim6_code_table_invariants (freq : List (Nat × Nat))
    (hne : freq ≠ []) (hnd : (freq.map Prod.fst).Nodup)
    (hbytes : ∀ p ∈ freq, p.1 < 256 ∧ 0 < p.2) :
    ∃ st : HuffmanTree, buildFromFrequencies freq = .ok st ∧
      (st.code_table.map Prod.fst).Perm (freq.map fun p => some p.1) ∧
      (∀ p ∈ st.code_table, p.2 ≠ []) ∧
      (∀ p q, p ∈ st.code_table → q ∈ st.code_table → p.1 ≠ q.1 →
        ¬ p.2 <+: q.2) := by
  match freq with
  | [] => exact absurd rfl hne
  | [(b, v)] =>
    refine ⟨⟨some (.mk v (some b) none none), [(some b, ['0'])],
      some (.mk v (some b) none none)⟩, rfl, ?_, ?_, ?_⟩
    · simp
    · intro p hp
      simp only [List.mem_singleton] at hp
      subst hp
      simp
    · intro p q hp hq hpq
      simp only [List.mem_singleton] at hp hq
      rw [hp, hq] at hpq
      exact absurd rfl hpq
  | (p₁ :: p₂ :: rest) =>
    obtain ⟨root, hbuild, hpt, hperm⟩ :=
      buildFromFrequencies_spec (p₁ :: p₂ :: rest) (by simp)
        (fun p hp => (hbytes p hp).1)
    have hndl : (leavesOf root).Nodup := hperm.nodup_iff.mpr hnd
    have hct : buildCodeTable (some root) = entriesOf root [] :=
      buildCodeTable_eq root hpt hndl
    refine ⟨_, hbuild, ?_, ?_, ?_⟩
    · show ((buildCodeTable (some root)).map Prod.fst).Perm _
      rw [hct, entriesOf_keys root hpt]
      refine (hperm.map some).trans (perm_of_list_eq ?_)
      rw [List.map_map]
      rfl
    · intro p hp
      simp only at hp
      rw [hct] at hp
      exact entriesOf_codes_ne_nil root hpt [] p hp
    · intro p q hp hq hpq
      simp only at hp hq
      rw [hct] at hp hq
      exact entriesOf_prefix_free root hpt [] p q hp hq hpq

/-- C6 (witness): the invariants at the concrete table
`{65: 1, 66: 2, 67: 1}`. -/
theorem claim6_witness :
    ([(65, 1), (66, 2), (67, 1)] : List (Nat × Nat)) ≠ [] ∧
    (∃ st : HuffmanTree,
      buildFromFrequencies [(65, 1), (66, 2), (67, 1)] = .ok st ∧
      (st.code_table.map Prod.fst).Perm
        ([(65, 1), (66, 2), (67, 1)].map fun p => some p.1) ∧
      (∀ p ∈ st.code_table, p.2 ≠ []) ∧
      (∀ p q, p ∈ st.code_table → q ∈ st.code_table → p.1 ≠ q.1 →
        ¬ p.2 <+: q.2)) :=
  ⟨by decide, claim6_code_table_invariants [(65, 1), (66, 2), (67, 1)]
    (by decide) (by decide) (by decide)⟩

/-- C7: every buffer `compress` produces has exactly the documented
layout: the 4 magic bytes at offset 0, a 4-byte big-endian tree-blob
byte length, the tree blob (`_bitstring_to_bytes` of the serialized
tree), a 4-byte big-endian count equal to the number of valid payload
*bits* (the encoded bitstring's length), and the payload bytes
(`_bitstring_to_bytes` of the encoded bitstring). -/
theorem claim7_container_layout (data out : List Nat)
    (h : compress data = .ok out) :
    ∃ (st : HuffmanTree) (encoded : List Char),
      buildFromBytes data = .ok st ∧
      encodeBytes st data = .ok encoded ∧
      out.take 4 = magic ∧
      unpackU32 ((out.drop 4).take 4) =
        .ok (bitstringToBytes (serializeNode st.root)).length ∧
      (out.drop 8).take (bitstringToBytes (serializeNode st.root)).length =
        bitstringToBytes (serializeNode st.root) ∧
      unpackU32 ((out.drop
          (8 + (bitstringToBytes (serializeNode st.root)).length)).take 4) =
        .ok encoded.length ∧
      out.drop (12 + (bitstringToBytes (serializeNode st.root)).length) =
        bitstringToBytes encoded := by
  by_cases hd : data = []
  · rw [compress, if_pos hd] at h
    exact Except.noConfusion h
  · rw [compress, if_neg hd] at h
    match hb : buildFromBytes data with
    | .error e => rw [hb] at h; exact Except.noConfusion h
    | .ok st =>
      rw [hb] at h
      dsimp only at h
      match he : encodeBytes st data with
      | .error e => rw [he] at h; exact Except.noConfusion h
      | .ok encoded =>
        rw [he] at h
        dsimp only at h
        match hts : packU32 (bitstringToBytes (serializeNode st.root)).length
          with
        | .error e => rw [hts] at h; exact Except.noConfusion h
        | .ok tsBytes =>
          rw [hts] at h
          dsimp only at h
          match hdb : packU32 encoded.length with
          | .error e => rw [hdb] at h; exact Except.noConfusion h
          | .ok dbBytes =>
            rw [hdb] at h
            dsimp only at h
            simp only [Except.ok.injEq] at h
            obtain ⟨hts4, htsv⟩ := packU32_spec _ _ hts
            obtain ⟨hdb4, hdbv⟩ := packU32_spec _ _ hdb
            subst h
            refine ⟨st, encoded, rfl, he, ?_, ?_, ?_, ?_, ?_⟩
            · have hout : magic ++ tsBytes ++
                  bitstringToBytes (serializeNode st.root) ++ dbBytes ++
                  bitstringToBytes encoded =
                  magic ++ (tsBytes ++
                    (bitstringToBytes (serializeNode st.root) ++
                      (dbBytes ++ bitstringToBytes encoded))) := by
                simp [List.append_assoc]
              rw [hout, take_append_of_length magic _ 4 (by simp [magic])]
            · have hout : magic ++ tsBytes ++
                  bitstringToBytes (serializeNode st.root) ++ dbBytes ++
                  bitstringToBytes encoded =
                  magic ++ (tsBytes ++
                    (bitstringToBytes (serializeNode st.root) ++
                      (dbBytes ++ bitstringToBytes encoded))) := by
                simp [List.append_assoc]
              rw [hout, drop_append_of_length magic _ 4 (by simp [magic]),
                take_append_of_length tsBytes _ 4 hts4, htsv]
            · have hout : magic ++ tsBytes ++
                  bitstringToBytes (serializeNode st.root) ++ dbBytes ++
                  bitstringToBytes encoded =
                  (magic ++ tsBytes) ++
                    (bitstringToBytes (serializeNode st.root) ++
                      (dbBytes ++ bitstringToBytes encoded)) := by
                simp [List.append_assoc]
              rw [hout, drop_append_of_length (magic ++ tsBytes) _ 8
                (by simp [magic, hts4]),
                take_append_of_length _ _ _ rfl]
            · have hout : magic ++ tsBytes ++
                  bitstringToBytes (serializeNode st.root) ++ dbBytes ++
                  bitstringToBytes encoded =
                  (magic ++ tsBytes ++
                    bitstringToBytes (serializeNode st.root)) ++
                    (dbBytes ++ bitstringToBytes encoded) := by
                simp [List.append_assoc]
              rw [hout, drop_append_of_length _ _
                (8 + (bitstringToBytes (serializeNode st.root)).length)
                (by simp [magic, hts4]; omega),
                take_append_of_length dbBytes _ 4 hdb4, hdbv]
            · have hout : magic ++ tsBytes ++
                  bitstringToBytes (serializeNode st.root) ++ dbBytes ++
                  bitstringToBytes encoded =
                  (magic ++ tsBytes ++
                    bitstringToBytes (serializeNode st.root) ++ dbBytes) ++
                    bitstringToBytes encoded := by
                simp [List.append_assoc]
              rw [hout, drop_append_of_length _ _
                (12 + (bitstringToBytes (serializeNode st.root)).length)
                (by simp [magic, hts4, hdb4]; omega)]

/-- C7 (witness): the layout of the container produced for the concrete
input `b"AB"`. -/
theorem claim7_witness :
    compress [65, 66] =
      .ok [72, 85, 70, 1, 0, 0, 0, 3, 80, 168, 32, 0, 0, 0, 2, 128] ∧
    (∃ (st : HuffmanTree) (encoded : List Char),
      buildFromBytes [65, 66] = .ok st ∧
      encodeBytes st [65, 66] = .ok encoded ∧
      [72, 85, 70, 1, 0, 0, 0, 3, 80, 168, 32, 0, 0, 0, 2, 128].take 4 =
        magic ∧
      unpackU32 (([72, 85, 70, 1, 0, 0, 0, 3, 80, 168, 32, 0, 0, 0, 2,
          128].drop 4).take 4) =
        .ok (bitstringToBytes (serializeNode st.root)).length ∧
      ([72, 85, 70, 1, 0, 0, 0, 3, 80, 168, 32, 0, 0, 0, 2, 128].drop
          8).take (bitstringToBytes (serializeNode st.root)).length =
        bitstringToBytes (serializeNode st.root) ∧
      unpackU32 (([72, 85, 70, 1, 0, 0, 0, 3, 80, 168, 32, 0, 0, 0, 2,
          128].drop
          (8 + (bitstringToBytes (serializeNode st.root)).length)).take 4) =
        .ok encoded.length ∧
      [72, 85, 70, 1, 0, 0, 0, 3, 80, 168, 32, 0, 0, 0, 2, 128].drop
          (12 + (bitstringToBytes (serializeNode st.root)).length) =
        bitstringToBytes encoded) :=
  ⟨by decide, claim7_container_layout [65, 66] _ (by decide)⟩

/-- C8: the serialization is defined node-by-node in pre-order — an
internal node contributes `'0'` then its left subtree then its right
subtree, a leaf contributes `'1'` followed by its 8-bit big-endian byte
value — and consequently the total bit-length is 1 bit per internal
node plus 9 bits per leaf. -/
theorem claim8_serialize_preorder_format (t : Node) (h : PTree t) :
    (∀ f (l r : Node), t = .mk f none (some l) (some r) →
      serializeNode (some t) =
        '0' :: (serializeNode (some l) ++ serializeNode (some r))) ∧
    (∀ f b, t = .mk f (some b) none none →
      serializeNode (some t) = '1' :: byteBits b ∧
        (byteBits b).length = 8) ∧
    (serializeNode (some t)).length = internalCount t + 9 * leafCount t := by
  refine ⟨?_, ?_, serializeNode_length t h⟩
  · intro f l r ht
    subst ht
    exact serializeNode_internal f l r
  · intro f b ht
    subst ht
    cases h with
    | leaf f2 b2 hb => exact ⟨serializeNode_leaf f b, byteBits_length b hb⟩

/-- C8 (witness): the format at a concrete two-leaf tree. -/
theorem claim8_witness :
    PTree (.mk 3 none (some (.mk 1 (some 65) none none))
      (some (.mk 2 (some 66) none none))) ∧
    ((∀ f (l r : Node), (Node.mk 3 none (some (.mk 1 (some 65) none none))
        (some (.mk 2 (some 66) none none))) = .mk f none (some l) (some r) →
      serializeNode (some (Node.mk 3 none (some (.mk 1 (some 65) none none))
          (some (.mk 2 (some 66) none none)))) =
        '0' :: (serializeNode (some l) ++ serializeNode (some r))) ∧
    (∀ f b, (Node.mk 3 none (some (.mk 1 (some 65) none none))
        (some (.mk 2 (some 66) none none))) = .mk f (some b) none none →
      serializeNode (some (Node.mk 3 none (some (.mk 1 (some 65) none none))
          (some (.mk 2 (some 66) none none)))) = '1' :: byteBits b ∧
        (byteBits b).length = 8) ∧
    (serializeNode (some (Node.mk 3 none
        (some (.mk 1 (some 65) none none))
        (some (.mk 2 (some 66) none none))))).length =
      internalCount (Node.mk 3 none (some (.mk 1 (some 65) none none))
          (some (.mk 2 (some 66) none none))) +
        9 * leafCount (Node.mk 3 none (some (.mk 1 (some 65) none none))
          (some (.mk 2 (some 66) none none)))) :=
  ⟨PTree.internal 3 _ _ (PTree.leaf 1 65 (by decide))
      (PTree.leaf 2 66 (by decide)),
    claim8_serialize_preorder_format _
      (PTree.internal 3 _ _ (PTree.leaf 1 65 (by decide))
        (PTree.leaf 2 66 (by decide)))⟩

/-- C9: tree construction is *not* deterministic as a function of the
frequency mapping: these two tables are equal as mappings (one is a
permutation of the other, both with distinct keys), yet
`build_from_frequencies` produces different code tables, because the
heap's tie-break among equal frequencies depends on dict insertion
order (`Node.__lt__` compares `freq` only). -/
theorem claim9_equal_tables_different_codes :
    ([(0, 1), (1, 1), (2, 2)] : List (Nat × Nat)).Perm
        [(1, 1), (0, 1), (2, 2)] ∧
    Except.map HuffmanTree.code_table
        (buildFromFrequencies [(0, 1), (1, 1), (2, 2)]) ≠
      Except.map HuffmanTree.code_table
        (buildFromFrequencies [(1, 1), (0, 1), (2, 2)]) := by
  decide

/-- C10: on a built multi-symbol tree, decoding an encoded bitstring
followed by a trailing fragment that is a strict prefix of some code
succeeds and returns exactly the fully decoded symbols, silently
discarding the trailing incomplete bits. -/
theorem claim10_trailing_bits_discarded (freq : List (Nat × Nat))
    (hlen : 2 ≤ freq.length) (hnd : (freq.map Prod.fst).Nodup)
    (hkeys : ∀ p ∈ freq, p.1 < 256)
    (st : HuffmanTree) (hbuild : buildFromFrequencies freq = .ok st)
    (ms : List Nat) (hms : ∀ m ∈ ms, m ∈ freq.map Prod.fst)
    (e : List Char) (henc : encodeBytes st ms = .ok e)
    (q : List Char)
    (hq : ∃ k c, (k, c) ∈ st.code_table ∧ q <+: c ∧ q ≠ c) :
    decodeBytes st (e ++ q) = .ok ms := by
  obtain ⟨root, hbuild2, hpt, hperm⟩ :=
    buildFromFrequencies_spec freq hlen hkeys
  rw [hbuild2] at hbuild
  simp only [Except.ok.injEq] at hbuild
  subst hbuild
  have hndl : (leavesOf root).Nodup := hperm.nodup_iff.mpr hnd
  have hlen2 : 2 ≤ (leavesOf root).length := by
    rw [hperm.length_eq]
    simpa using hlen
  have hnl : root.isLeaf = false := PTree_two_leaves_not_leaf root hpt hlen2
  have htbl : buildCodeTable (some root) = rpaths root :=
    buildCodeTable_internal_eq_rpaths root hpt hnl hndl
  obtain ⟨items, hitems, hfst, he⟩ := encodeBytes_items _ ms e henc
  have hitems' : ∀ it ∈ items, it ∈ rpaths root := by
    intro it hit
    have hmem := hitems it hit
    simp only at hmem
    rwa [htbl] at hmem
  obtain ⟨k, c, hkc, hpre, hne2⟩ := hq
  have hkc' : (k, c) ∈ rpaths root := by
    simp only at hkc
    rwa [htbl] at hkc
  subst he
  rw [decodeBytes]
  dsimp only
  rw [decode_walk_multi root hpt hnl _ items hitems' q []]
  simp only [List.nil_append]
  rw [hfst]
  obtain ⟨u, hu⟩ := decode_walk_partial root hpt hnl k c hkc' q hpre hne2
    root (buildCodeTable (some root)) (ms.map some) hnl
  rw [hu]
  refine bytesOf_map_some ms fun m hm => ?_
  obtain ⟨p, hp, hpm⟩ := List.mem_map.mp (hms m hm)
  exact hpm ▸ hkeys p hp

/-- C10 (witness): with table `{0:1, 1:1, 2:2}` (codes `2 ↦ "0"`,
`1 ↦ "10"`, `0 ↦ "11"`), decoding `encode([2,0]) ++ "1"` returns
`[2, 0]` and discards the trailing bit. -/
theorem claim10_witness :
    ∃ (st : HuffmanTree) (e : List Char),
      buildFromFrequencies [(0, 1), (1, 1), (2, 2)] = .ok st ∧
      encodeBytes st [2, 0] = .ok e ∧
      decodeBytes st (e ++ ['1']) = .ok [2, 0] := by
  refine ⟨_, _, rfl, rfl, ?_⟩
  exact claim10_trailing_bits_discarded [(0, 1), (1, 1), (2, 2)] (by decide)
    (by decide) (by decide) _ rfl [2, 0] (by decide) _ rfl ['1']
    ⟨some 1, ['1', '0'], by decide, by decide, by decide⟩

end Huffman
